import Mathlib

/-!
Verification development for the reaction-classification core of the
`autochem` repository (`automol/graph/reac.py`).

The code of `automol/graph/reac.py` is embedded function by function.  Its
external collaborators (the molecular-graph ADT, the full-isomorphism
oracle, formula analysis, hydrogen expansion, key standardization and the
transformation value type from `automol.graph.trans`) are not part of the
repository sources available here, so they are modelled from the
specification; each such definition carries a doc comment starting with
"Modelled from the spec:".  Leading underscores of Python helper names are
dropped (Lean style), and Python booleans and dict truthiness are made
explicit.
-/

namespace Reac

/-- Modelled from the spec: an atom value of the molecular-graph ADT — an
element symbol, an implicit-hydrogen count placeholder, and a
stereo-parity-or-none slot. -/
structure Atom where
  symb : String
  hcnt : Nat
  ster : Option Bool
deriving DecidableEq, Repr

/-- Modelled from the spec: a molecular graph — a mapping from atom key to
atom value plus a mapping from an unordered pair of atom keys to a bond
annotation (order, stereo-or-none).  Mappings are association lists;
unordered bond keys are kept as pairs with the smaller key first. -/
structure Graph where
  atms : List (Nat × Atom)
  bnds : List ((Nat × Nat) × (Nat × Option Bool))
deriving DecidableEq, Repr

/-- Canonical form of an unordered atom-key pair (smaller key first),
mirroring a Python two-element frozenset. -/
def mkBnd (a b : Nat) : Nat × Nat := if a ≤ b then (a, b) else (b, a)

/-- Modelled from the spec: the atom keys of a graph. -/
def atom_keys (g : Graph) : List Nat := g.atms.map Prod.fst

/-- Modelled from the spec: the bond keys of a graph. -/
def bond_keys (g : Graph) : List (Nat × Nat) := g.bnds.map Prod.fst

/-- Look up an atom value by key. -/
def atomVal (g : Graph) (k : Nat) : Option Atom :=
  (g.atms.find? (fun e => decide (e.1 = k))).map Prod.snd

/-- Atom lookup with a default (Python raises on a missing key; all
reachable uses are on present keys). -/
def atomValD (g : Graph) (k : Nat) : Atom := (atomVal g k).getD ⟨"", 0, none⟩

/-- Look up a bond annotation by canonical bond key. -/
def bondVal (g : Graph) (bk : Nat × Nat) : Option (Nat × Option Bool) :=
  (g.bnds.find? (fun e => decide (e.1 = bk))).map Prod.snd

/-- Well-formedness of a graph: atom keys are distinct, bond keys are
distinct and canonical, and bond endpoints are atoms of the graph. -/
def Wf (g : Graph) : Prop :=
  (atom_keys g).Nodup ∧ (bond_keys g).Nodup ∧
    ∀ e ∈ g.bnds, e.1.1 < e.1.2 ∧ e.1.1 ∈ atom_keys g ∧ e.1.2 ∈ atom_keys g

instance : DecidablePred Wf := fun g => by unfold Wf; infer_instance

/-! ## The isomorphism oracle (modelled from the spec) -/

/-- First components of a key pairing. -/
def keysFst (p : List (Nat × Nat)) : List Nat := p.map Prod.fst

/-- Second components of a key pairing. -/
def keysSnd (p : List (Nat × Nat)) : List Nat := p.map Prod.snd

/-- Modelled from the spec: a key pairing realizes a full isomorphism of
two graphs — it is a total bijection between the two atom-key sets that
matches atom values exactly and matches bond presence and annotation
between corresponding atom pairs in both directions. -/
def IsoCheckP (p : List (Nat × Nat)) (g h : Graph) : Prop :=
  List.Perm (keysFst p) (atom_keys g) ∧ List.Perm (keysSnd p) (atom_keys h) ∧
    (keysFst p).Nodup ∧ (keysSnd p).Nodup ∧
    (∀ pr ∈ p, atomVal g pr.1 = atomVal h pr.2) ∧
    ∀ pr ∈ p, ∀ qr ∈ p, bondVal g (mkBnd pr.1 qr.1) = bondVal h (mkBnd pr.2 qr.2)

instance (p : List (Nat × Nat)) (g h : Graph) : Decidable (IsoCheckP p g h) := by
  unfold IsoCheckP; infer_instance

/-- Modelled from the spec: `full_isomorphism(gra1, gra2)`, the oracle
deciding whether a label- and bond-order-respecting total bijection exists
between the two graphs' atom sets, returning one such mapping or the
no-match sentinel.  Realized as an exhaustive search over key pairings. -/
def full_isomorphism (g h : Graph) : Option (List (Nat × Nat)) :=
  ((atom_keys h).permutations'.map (fun perm => (atom_keys g).zip perm)).find?
    (fun p => decide (IsoCheckP p g h))

/-- Apply a key pairing as a mapping (Python `dct[key]`). -/
def papply (p : List (Nat × Nat)) (a : Nat) : Option Nat :=
  (p.find? (fun pr => decide (pr.1 = a))).map Prod.snd

/-- Mapping application with a default; reachable uses are on keys in the
mapping's domain. -/
def papplyD (p : List (Nat × Nat)) (a : Nat) : Nat := (papply p a).getD 0

/-- Python truthiness of the returned isomorphism dict: a mapping counts
as a match exactly when it is a non-empty dict. -/
def isoTruthy (g h : Graph) : Bool := !((full_isomorphism g h).getD []).isEmpty

/-! ## Graph operations (modelled from the spec) -/

/-- Modelled from the spec: union of two graphs on disjoint key spaces. -/
def union (g1 g2 : Graph) : Graph := ⟨g1.atms ++ g2.atms, g1.bnds ++ g2.bnds⟩

/-- Modelled from the spec: union of a sequence of graphs. -/
def union_from_sequence (gs : List Graph) : Graph := gs.foldl union ⟨[], []⟩

/-- Modelled from the spec: add single-order bonds at the given key pairs. -/
def add_bonds (g : Graph) (bks : List (Nat × Nat)) : Graph :=
  ⟨g.atms, g.bnds ++ bks.map (fun bk => (mkBnd bk.1 bk.2, (1, none)))⟩

/-- Modelled from the spec: remove the bonds at the given key pairs. -/
def remove_bonds (g : Graph) (bks : List (Nat × Nat)) : Graph :=
  ⟨g.atms, g.bnds.filter (fun e => decide (e.1 ∉ bks.map (fun bk => mkBnd bk.1 bk.2)))⟩

/-- Modelled from the spec: remove atoms and their incident bonds. -/
def remove_atoms (g : Graph) (ks : List Nat) : Graph :=
  ⟨g.atms.filter (fun e => decide (e.1 ∉ ks)),
    g.bnds.filter (fun e => decide (e.1.1 ∉ ks ∧ e.1.2 ∉ ks))⟩

/-- Modelled from the spec: attach explicit hydrogen atoms with the given
fresh keys to the given atom (the source passes a one-entry dict). -/
def add_atom_explicit_hydrogen_keys (g : Graph) (atm_key : Nat) (h_keys : List Nat) : Graph :=
  ⟨g.atms ++ h_keys.map (fun k => (k, ⟨"H", 0, none⟩)),
    g.bnds ++ h_keys.map (fun k => (mkBnd atm_key k, (1, none)))⟩

/-- Modelled from the spec: element valences used for unsaturated-site
computation. -/
def atomValence : String → Nat
  | "H" => 1
  | "C" => 4
  | "N" => 3
  | "O" => 2
  | "S" => 2
  | _ => 0

/-- Sum of the orders of the bonds incident to a key. -/
def bond_order_sum (g : Graph) (k : Nat) : Nat :=
  (g.bnds.filterMap (fun e => if e.1.1 = k ∨ e.1.2 = k then some e.2.1 else none)).sum

/-- Modelled from the spec: atoms bearing at least one available valence
slot for a new bond, computed from element valence rules, existing bond
orders and the implicit-hydrogen placeholder. -/
def unsaturated_atom_keys (g : Graph) : List Nat :=
  (atom_keys g).filter
    (fun k => decide (bond_order_sum g k + (atomValD g k).hcnt < atomValence (atomValD g k).symb))

/-- Modelled from the spec: the neighbor keys of an atom. -/
def atom_neighbor_keys (g : Graph) (k : Nat) : List Nat :=
  (g.bnds.filterMap (fun e =>
    if e.1.1 = k then some e.1.2 else if e.1.2 = k then some e.1.1 else none)).dedup

/-- One breadth step of reachability closure. -/
def nbhdClosure (g : Graph) : Nat → List Nat → List Nat
  | 0, s => s
  | n + 1, s => nbhdClosure g n ((s ++ s.flatMap (atom_neighbor_keys g)).dedup)

/-- Keys of the connected component containing a key. -/
def component_keys (g : Graph) (k : Nat) : List Nat :=
  nbhdClosure g (atom_keys g).length [k]

/-- Induced subgraph on a key set. -/
def subgraph (g : Graph) (ks : List Nat) : Graph :=
  ⟨g.atms.filter (fun e => decide (e.1 ∈ ks)),
    g.bnds.filter (fun e => decide (e.1.1 ∈ ks ∧ e.1.2 ∈ ks))⟩

/-- Modelled from the spec: the connected components of a graph, one
subgraph per component, in first-seen atom-key order. -/
def connected_components (g : Graph) : List Graph :=
  ((atom_keys g).foldl
    (fun reps k => if reps.any (fun c => decide (k ∈ c)) then reps else reps ++ [component_keys g k])
    []).map (subgraph g)

/-! ## Formula-level collaborators (modelled from the spec) -/

/-- Element symbols of a graph, with implicit hydrogens expanded. -/
def atomSymbols (g : Graph) : List String :=
  g.atms.flatMap (fun e => e.2.symb :: List.replicate e.2.hcnt "H")

/-- Modelled from the spec: the molecular formula of a graph, as the
multiset of its element symbols (implicit hydrogens included). -/
def formula (g : Graph) : Multiset String := ↑(atomSymbols g)

/-- Modelled from the spec: atomic numbers for the electron count. -/
def atomic_number : String → Nat
  | "H" => 1
  | "C" => 6
  | "N" => 7
  | "O" => 8
  | "S" => 16
  | _ => 0

/-- Modelled from the spec: number of non-hydrogen atoms. -/
def heavy_atom_count (g : Graph) : Nat :=
  (atomSymbols g).countP (fun s => decide (s ≠ "H"))

/-- Modelled from the spec: total number of atoms, hydrogens included. -/
def atom_count (g : Graph) : Nat := (atomSymbols g).length

/-- Modelled from the spec: total number of electrons. -/
def electron_count (g : Graph) : Nat := ((atomSymbols g).map atomic_number).sum

/-- `is_valid_reaction`: same overall formula for reactants and products.
The formula-level check itself is modelled from the spec (mass/element
balance of the two reagent lists). -/
def is_valid_reaction (rct_gras prd_gras : List Graph) : Prop :=
  (rct_gras.map formula).sum = (prd_gras.map formula).sum

instance (r p : List Graph) : Decidable (is_valid_reaction r p) := by
  unfold is_valid_reaction; infer_instance

/-! ## Hydrogen expansion, stereo stripping, key standardization
(modelled from the spec) -/

/-- Largest atom key of a graph (0 for the empty graph; the Python source
calls `max` on a non-empty key set). -/
def maxKey (g : Graph) : Nat := (atom_keys g).foldr max 0

/-- Fresh-key assignment for implicit hydrogens: each atom entry receives
the first fresh key for its block of explicit hydrogens. -/
def hAssignments (g : Graph) : List (Nat × Nat × Nat) :=
  (g.atms.foldl
    (fun (st : List (Nat × Nat × Nat) × Nat) e =>
      (st.1 ++ [(e.1, st.2, e.2.hcnt)], st.2 + e.2.hcnt))
    ([], maxKey g + 1)).1

/-- Modelled from the spec: implicit-to-explicit hydrogen expansion — every
implicit hydrogen becomes its own atom with a fresh key, bonded to its
heavy atom, and the implicit counts are zeroed. -/
def explicit (g : Graph) : Graph :=
  ⟨g.atms.map (fun e => (e.1, ⟨e.2.symb, 0, e.2.ster⟩))
      ++ (hAssignments g).flatMap
        (fun t => (List.range t.2.2).map (fun i => (t.2.1 + i, ⟨"H", 0, none⟩))),
    g.bnds ++ (hAssignments g).flatMap
      (fun t => (List.range t.2.2).map (fun i => (mkBnd t.1 (t.2.1 + i), (1, none))))⟩

/-- Modelled from the spec: strip all stereo parity assignments. -/
def without_stereo_parities (g : Graph) : Graph :=
  ⟨g.atms.map (fun e => (e.1, ⟨e.2.symb, e.2.hcnt, none⟩)),
    g.bnds.map (fun e => (e.1, (e.2.1, none)))⟩

/-- Insertion into a list sorted by the boolean order `le`. -/
def ordInsert (le : α → α → Bool) (x : α) : List α → List α
  | [] => [x]
  | y :: l => if le x y then x :: y :: l else y :: ordInsert le x l

/-- Insertion sort by a boolean order (stable for a total preorder). -/
def isort (le : α → α → Bool) : List α → List α
  | [] => []
  | x :: l => ordInsert le x (isort le l)

/-- Ascending order on atom keys. -/
def natLe (a b : Nat) : Bool := decide (a ≤ b)

/-- Position of a key in a key list. -/
def idxOfNat (k : Nat) : List Nat → Nat
  | [] => 0
  | x :: xs => if x = k then 0 else idxOfNat k xs + 1

/-- Apply a key transformation to a graph. -/
def transform_keys (g : Graph) (f : Nat → Nat) : Graph :=
  ⟨g.atms.map (fun e => (f e.1, e.2)),
    g.bnds.map (fun e => (mkBnd (f e.1.1) (f e.1.2), e.2))⟩

/-- The standard-key renumbering map of one graph at a given offset:
sorted atom keys are sent to consecutive keys starting at the offset. -/
def standardMap (g : Graph) (off : Nat) (k : Nat) : Nat :=
  off + idxOfNat k (isort natLe (atom_keys g))

/-- Modelled from the spec: renumber every reagent's atom keys into a
single disjoint standard key space (the source also returns the key
mappings, which the callers here discard). -/
def standard_keys_for_sequence (gs : List Graph) : List Graph × Unit :=
  ((gs.foldl
      (fun (st : List Graph × Nat) g =>
        (st.1 ++ [transform_keys g (standardMap g st.2)], st.2 + g.atms.length))
      ([], 0)).1,
    ())

/-! ## The transformation value type (modelled from the spec) -/

/-- The reaction classes of `automol.par.REACTION_CLASS`. -/
inductive RxnClass
  | TRIVIAL
  | HYDROGEN_MIGRATION
  | HYDROGEN_ABSTRACTION
  | ADDITION
  | BETA_SCISSION
  | ELIMINATION
  | INSERTION
  | SUBSTITUTION
  | RING_FORM_SCISSION
deriving DecidableEq, Repr

/-- Ascending lexicographic order on canonical bond keys. -/
def pairLe (a b : Nat × Nat) : Bool :=
  decide (a.1 < b.1 ∨ (a.1 = b.1 ∧ a.2 ≤ b.2))

/-- Canonical representation of a frozenset of bond keys: canonical pairs,
sorted, duplicates removed (so value equality is set equality). -/
def canonBnds (l : List (Nat × Nat)) : List (Nat × Nat) :=
  (isort pairLe (l.map (fun p => mkBnd p.1 p.2))).dedup

/-- Modelled from the spec: an immutable transformation record of
reaction class, formed-bond set and broken-bond set, with value equality.
The class slot is optional because reversing a class with no defined
reverse yields none. -/
structure Tra where
  rxnClass : Option RxnClass
  frm : List (Nat × Nat)
  brk : List (Nat × Nat)
deriving DecidableEq, Repr

/-- Modelled from the spec: `trans.from_data`, the transformation
constructor (bond-key lists become sets). -/
def Tra.from_data (cls : Option RxnClass) (frm brk : List (Nat × Nat)) : Tra :=
  ⟨cls, canonBnds frm, canonBnds brk⟩

/-- `reverse_class`: the static reverse table (hydrogen migration and
abstraction are self-reverse, addition and beta scission swap; all other
classes have no defined reverse). -/
def reverse_class : RxnClass → Option RxnClass
  | .HYDROGEN_MIGRATION => some .HYDROGEN_MIGRATION
  | .HYDROGEN_ABSTRACTION => some .HYDROGEN_ABSTRACTION
  | .ADDITION => some .BETA_SCISSION
  | .BETA_SCISSION => some .ADDITION
  | _ => none

/-- Modelled from the spec: apply a transformation to a reactant-side
graph (form the formed bonds, break the broken bonds). -/
def trans_apply (tra : Tra) (g : Graph) : Graph :=
  remove_bonds (add_bonds g tra.frm) tra.brk

/-- Modelled from the spec: `trans.reverse(tra, gra1, gra2)` — swap the
formed and broken bond sets and remap the atom keys into `gra2`'s key
space through the correspondence between the transformed `gra1` and
`gra2`, mapping the reaction class through the static reverse table. -/
def trans_reverse (tra : Tra) (gra1 gra2 : Graph) : Tra :=
  let p := (full_isomorphism (trans_apply tra gra1) gra2).getD []
  Tra.from_data (tra.rxnClass.bind reverse_class)
    (tra.brk.map (fun bk => (papplyD p bk.1, papplyD p bk.2)))
    (tra.frm.map (fun bk => (papplyD p bk.1, papplyD p bk.2)))

/-! ## Reagent validation (`reac.py`) -/

/-- Contract errors: invalid reagent lists, formula-imbalanced reaction,
or an internal assertion of the elimination classifier. -/
inductive ContractErr
  | invalidReagents
  | invalidReaction
  | assertionFailed
deriving DecidableEq, Repr

/-- `_are_all_explicit`: every graph equals its explicit-hydrogen form. -/
def are_all_explicit (gras : List Graph) : Prop := ∀ g ∈ gras, g = explicit g

instance (gras : List Graph) : Decidable (are_all_explicit gras) := by
  unfold are_all_explicit; infer_instance

/-- `_have_no_stereo_assignments`: every graph equals its stereo-stripped
form. -/
def have_no_stereo_assignments (gras : List Graph) : Prop :=
  ∀ g ∈ gras, g = without_stereo_parities g

instance (gras : List Graph) : Decidable (have_no_stereo_assignments gras) := by
  unfold have_no_stereo_assignments; infer_instance

/-- `_have_no_common_atom_keys`: no two graphs of the list share a key. -/
def have_no_common_atom_keys (gras : List Graph) : Prop :=
  (gras.flatMap atom_keys).Nodup

instance (gras : List Graph) : Decidable (have_no_common_atom_keys gras) := by
  unfold have_no_common_atom_keys; infer_instance

/-- `_assert_is_valid_reagent_graph_list` (assertion failures become a
contract error of kind `invalidReagents`). -/
def assert_is_valid_reagent_graph_list (gras : List Graph) : Except ContractErr Unit :=
  if are_all_explicit gras then
    if have_no_stereo_assignments gras then
      if have_no_common_atom_keys gras then pure ()
      else throw .invalidReagents
    else throw .invalidReagents
  else throw .invalidReagents

/-- The three validity conditions together. -/
def ValidReagents (gras : List Graph) : Prop :=
  are_all_explicit gras ∧ have_no_stereo_assignments gras ∧ have_no_common_atom_keys gras

instance (gras : List Graph) : Decidable (ValidReagents gras) := by
  unfold ValidReagents; infer_instance

/-- The result triple of a classifier: transformations, reactant sort
indices, product sort indices. -/
abbrev FinderResult := List Tra × Option (List Nat) × Option (List Nat)

/-- The empty no-match result. -/
def noMatch : FinderResult := ([], none, none)

/-! ## The trivial-reaction classifier -/

/-- Index of the first product with a (truthy) full isomorphism to the
reactant, mirroring `next((idx for idx, ...), None)`. -/
def firstIsoIdx (r : Graph) : List Graph → Option Nat
  | [] => none
  | p :: ps => if isoTruthy r p then some 0 else (firstIsoIdx r ps).map (· + 1)

/-- The greedy matching loop of `trivial_reaction`: each reactant claims
the first isomorphic product, which is popped from the product list; the
recorded index refers to the shrinking list. -/
def trivLoop : List Graph → List Graph → Option (List Nat)
  | [], _ => some []
  | r :: rs, prds =>
    match firstIsoIdx r prds with
    | none => none
    | some j => (trivLoop rs (prds.eraseIdx j)).map (fun idxs => j :: idxs)

/-- `trivial_reaction`. -/
def trivial_reaction (rct_gras prd_gras : List Graph) : Except ContractErr FinderResult := do
  assert_is_valid_reagent_graph_list rct_gras
  assert_is_valid_reagent_graph_list prd_gras
  if rct_gras.length = prd_gras.length then
    match trivLoop rct_gras prd_gras with
    | some prd_idxs =>
        pure ([Tra.from_data (some .TRIVIAL) [] []],
          some (List.range rct_gras.length), some prd_idxs)
    | none => pure noMatch
  else
    pure noMatch

/-- `is_trivial_reaction`. -/
def is_trivial_reaction (rct_gras prd_gras : List Graph) : Except ContractErr Bool := do
  let (tras, _, _) ← trivial_reaction rct_gras prd_gras
  pure (!tras.isEmpty)

/-! ## Search-loop combinator shared by several classifiers -/

/-- A classifier loop that, for each candidate, appends a transformation
on success and (re)assigns the two sort-index tuples, mirroring the Python
for-loops of `hydrogen_migration`, `hydrogen_abstraction`, `addition` and
`substitution`. -/
def condLoop (test : α → Option Tra) (ab : List Nat × List Nat) :
    List α → FinderResult → FinderResult
  | [], st => st
  | c :: cs, st =>
    condLoop test ab cs
      (match test c with
        | some tra => (st.1 ++ [tra], some ab.1, some ab.2)
        | none => st)

/-- Cartesian product of two candidate lists (`itertools.product`). -/
def listProd (l1 : List α) (l2 : List β) : List (α × β) :=
  l1.flatMap (fun a => l2.map (fun b => (a, b)))

/-- `_argsort_reactants`: indices sorted by descending (heavy-atom count,
atom count, electron count), stable on ties. -/
def argsort_reactants (gras : List Graph) : List Nat :=
  let sval := fun (g : Graph) => (heavy_atom_count g, atom_count g, electron_count g)
  let le := fun (x y : Nat × Graph) =>
    decide ((sval y.2).1 < (sval x.2).1 ∨
      ((sval y.2).1 = (sval x.2).1 ∧ ((sval y.2).2.1 < (sval x.2).2.1 ∨
        ((sval y.2).2.1 = (sval x.2).2.1 ∧ (sval y.2).2.2 ≤ (sval x.2).2.2))))
  (isort le gras.enum).map Prod.fst

/-! ## Hydrogen migration -/

/-- `hydrogen_migration`. -/
def hydrogen_migration (rct_gras prd_gras : List Graph) : Except ContractErr FinderResult := do
  assert_is_valid_reagent_graph_list rct_gras
  assert_is_valid_reagent_graph_list prd_gras
  let is_triv ← is_trivial_reaction rct_gras prd_gras
  match rct_gras, prd_gras with
  | [gra1], [gra2] =>
    if is_triv then pure noMatch else
      let h_atm_key1 := maxKey gra1 + 1
      let h_atm_key2 := maxKey gra2 + 1
      let test := fun (ak : Nat × Nat) =>
        let gra1_h := add_atom_explicit_hydrogen_keys gra1 ak.1 [h_atm_key1]
        let gra2_h := add_atom_explicit_hydrogen_keys gra2 ak.2 [h_atm_key2]
        match full_isomorphism gra2_h gra1_h with
        | some p =>
          if p.isEmpty then none else
            some (Tra.from_data (some .HYDROGEN_MIGRATION)
              [(ak.1, papplyD p h_atm_key2)]
              [(papplyD p ak.2, papplyD p h_atm_key2)])
        | none => none
      pure (condLoop test ([0], [0])
        (listProd (unsaturated_atom_keys gra1) (unsaturated_atom_keys gra2)) noMatch)
  | _, _ => pure noMatch

/-! ## Hydrogen abstraction -/

/-- Modelled from the spec: `automol.formula.reac.argsort_hydrogen_abstraction`
— formula-level analysis determining a consistent pairing so that
reactants (Q1H, Q2) line up with products (Q2H, Q1), one hydrogen moving
between the two species; returns index tuples or the no-match sentinel. -/
def argsort_hydrogen_abstraction (rct_fmls prd_fmls : List (Multiset String)) :
    Option ((Nat × Nat) × (Nat × Nat)) :=
  ([((0, 1), (0, 1)), ((0, 1), (1, 0)), ((1, 0), (0, 1)), ((1, 0), (1, 0))]).find?
    (fun c =>
      let q1h := rct_fmls.getD c.1.1 0
      let q2 := rct_fmls.getD c.1.2 0
      let q2h := prd_fmls.getD c.2.1 0
      let q1 := prd_fmls.getD c.2.2 0
      decide (q1h = "H" ::ₘ q1 ∧ q2h = "H" ::ₘ q2))

/-- `_partial_hydrogen_abstraction`: candidate (donor heavy atom, donor
hydrogen, acceptor heavy atom) triples for one QH/Q pair. -/
def partial_hydrogen_abstraction (qh_gra q_gra : Graph) : List (Nat × Nat × Nat) :=
  let h_atm_key := maxKey q_gra + 1
  (unsaturated_atom_keys q_gra).filterMap (fun atm_key =>
    let q_gra_h := add_atom_explicit_hydrogen_keys q_gra atm_key [h_atm_key]
    match full_isomorphism q_gra_h qh_gra with
    | some p =>
      if p.isEmpty then none else
        some (papplyD p atm_key, papplyD p h_atm_key, atm_key)
    | none => none)

/-- `hydrogen_abstraction`. -/
def hydrogen_abstraction (rct_gras prd_gras : List Graph) : Except ContractErr FinderResult := do
  assert_is_valid_reagent_graph_list rct_gras
  assert_is_valid_reagent_graph_list prd_gras
  let is_triv ← is_trivial_reaction rct_gras prd_gras
  match rct_gras, prd_gras with
  | [r0, r1], [p0, p1] =>
    if is_triv then pure noMatch else
      match argsort_hydrogen_abstraction [formula r0, formula r1] [formula p0, formula p1] with
      | none => pure noMatch
      | some (ri, pi) =>
        let q1h_gra := [r0, r1].getD ri.1 ⟨[], []⟩
        let q2_gra := [r0, r1].getD ri.2 ⟨[], []⟩
        let q2h_gra := [p0, p1].getD pi.1 ⟨[], []⟩
        let q1_gra := [p0, p1].getD pi.2 ⟨[], []⟩
        let rets1 := partial_hydrogen_abstraction q1h_gra q1_gra
        let rets2 := partial_hydrogen_abstraction q2h_gra q2_gra
        let test := fun (c : (Nat × Nat × Nat) × (Nat × Nat × Nat)) =>
          some (Tra.from_data (some .HYDROGEN_ABSTRACTION)
            [(c.2.2.2, c.1.2.1)] [(c.1.1, c.1.2.1)])
        pure (condLoop test ([ri.1, ri.2], [pi.1, pi.2]) (listProd rets1 rets2) noMatch)
  | _, _ => pure noMatch

/-! ## Addition and beta scission -/

/-- `addition`. -/
def addition (rct_gras prd_gras : List Graph) : Except ContractErr FinderResult := do
  assert_is_valid_reagent_graph_list rct_gras
  assert_is_valid_reagent_graph_list prd_gras
  let is_triv ← is_trivial_reaction rct_gras prd_gras
  match rct_gras, prd_gras with
  | [x_gra, y_gra], [prd_gra] =>
    if is_triv then pure noMatch else
      let test := fun (xy : Nat × Nat) =>
        let xy_gra := add_bonds (union x_gra y_gra) [(xy.1, xy.2)]
        match full_isomorphism xy_gra prd_gra with
        | some p =>
          if p.isEmpty then none else
            some (Tra.from_data (some .ADDITION) [(xy.1, xy.2)] [])
        | none => none
      pure (condLoop test (argsort_reactants rct_gras, [0])
        (listProd (unsaturated_atom_keys x_gra) (unsaturated_atom_keys y_gra)) noMatch)
  | _, _ => pure noMatch

/-- Deduplication by value equality (`tuple(set(tras))`). -/
def dedupTras (l : List Tra) : List Tra := l.dedup

/-- `beta_scission`: implemented as the reverse of an addition reaction. -/
def beta_scission (rct_gras prd_gras : List Graph) : Except ContractErr FinderResult := do
  let (rev_tras, prd_idxs, rct_idxs) ← addition prd_gras rct_gras
  let tras :=
    if rev_tras.isEmpty then [] else
      let rct_gra := union_from_sequence rct_gras
      let prd_gra := union_from_sequence prd_gras
      rev_tras.map (fun tra => trans_reverse tra prd_gra rct_gra)
  pure (dedupTras tras, rct_idxs, prd_idxs)

/-! ## Ring-forming scission -/

/-- `ring_forming_scission`.  The Python guard `atms[xatm][1] != 'H'`
compares the implicit-hydrogen count (an int) with the string H and is
therefore always true; it is embedded as the literal `true` condition.
The guard `not tras` tests the transformation list accumulated across the
whole search. -/
def ring_forming_scission (rct_gras prd_gras : List Graph) : Except ContractErr FinderResult := do
  assert_is_valid_reagent_graph_list rct_gras
  assert_is_valid_reagent_graph_list prd_gras
  let is_triv ← is_trivial_reaction rct_gras prd_gras
  match rct_gras, prd_gras with
  | [rgra], [pgra1, pgra2] =>
    if is_triv then pure noMatch else
      let pgra := union pgra1 pgra2
      let tras := (unsaturated_atom_keys rgra).foldl (fun tras rad_atm =>
        (atom_keys rgra).foldl (fun tras xatm =>
          if xatm ≠ rad_atm ∧ true ∧ xatm ∉ atom_neighbor_keys rgra rad_atm ∧ tras = [] then
            match (atom_neighbor_keys rgra xatm).findSome? (fun natm =>
              if natm ≠ rad_atm then
                let xgra := remove_bonds (add_bonds rgra [(rad_atm, xatm)]) [(xatm, natm)]
                match full_isomorphism xgra pgra with
                | some p =>
                  if p.isEmpty then none else
                    some (Tra.from_data (some .RING_FORM_SCISSION)
                      [(rad_atm, xatm)] [(xatm, natm)])
                | none => none
              else none) with
            | some tra => tras ++ [tra]
            | none => tras
          else tras) tras) []
      pure (tras, some [0], some (argsort_reactants prd_gras))
  | _, _ => pure noMatch

/-! ## Elimination and insertion -/

/-- The two elements of a canonical bond key not in a key set. -/
def bndDiff (bk : Nat × Nat) (ks : List Nat) : List Nat :=
  [bk.1, bk.2].filter (fun k => decide (k ∉ ks))

/-- `_central_fragment_atom_keys`: among exactly three components, the
last one connected to both break sites (None otherwise). -/
def central_fragment_atom_keys (g : Graph) (b1 b2 : Nat × Nat) : Option (List Nat) :=
  let gs := connected_components g
  if gs.length = 3 then
    gs.foldl (fun acc cg =>
      let ks := atom_keys cg
      if (bndDiff b1 ks).length = 1 ∧ (bndDiff b2 ks).length = 1 then some ks else acc)
      none
  else none

/-- Unordered pairs of a list in `itertools.combinations` order. -/
def combinations2 : List α → List (α × α)
  | [] => []
  | x :: xs => xs.map (fun y => (x, y)) ++ combinations2 xs

/-- One candidate step of the elimination search; the subset check on the
central fragment's product image is the source's inline assert. -/
def elimStep (rct_gra p0 p1 : Graph) (bks : (Nat × Nat) × (Nat × Nat)) :
    Except ContractErr (Option (Tra × (List Nat × List Nat))) :=
  let rct_gra_ := remove_bonds rct_gra [bks.1, bks.2]
  match central_fragment_atom_keys rct_gra_ bks.1 bks.2 with
  | none => pure none
  | some cent_keys =>
    let atm1_key := (bndDiff bks.1 cent_keys).headD 0
    let atm2_key := (bndDiff bks.2 cent_keys).headD 0
    let frm_bnd_key := mkBnd atm1_key atm2_key
    let rct_gra2 := add_bonds rct_gra_ [frm_bnd_key]
    let prd_gra := union_from_sequence [p0, p1]
    match full_isomorphism rct_gra2 prd_gra with
    | some p =>
      if p.isEmpty then pure none else
        let cent_prd := cent_keys.map (papplyD p)
        let tra := Tra.from_data (some .ELIMINATION) [frm_bnd_key] [bks.1, bks.2]
        if cent_prd.all (fun k => decide (k ∈ atom_keys p0)) then
          pure (some (tra, ([0], [0, 1])))
        else if cent_prd.all (fun k => decide (k ∈ atom_keys p1)) then
          pure (some (tra, ([0], [1, 0])))
        else throw .assertionFailed
    | none => pure none

/-- The elimination candidate fold. -/
def elimFold (rct_gra p0 p1 : Graph) :
    List ((Nat × Nat) × (Nat × Nat)) → FinderResult → Except ContractErr FinderResult
  | [], st => pure st
  | c :: cs, st => do
    let r ← elimStep rct_gra p0 p1 c
    elimFold rct_gra p0 p1 cs
      (match r with
        | some (tra, idxs) => (st.1 ++ [tra], some idxs.1, some idxs.2)
        | none => st)

/-- `elimination`. -/
def elimination (rct_gras prd_gras : List Graph) : Except ContractErr FinderResult := do
  assert_is_valid_reagent_graph_list rct_gras
  assert_is_valid_reagent_graph_list prd_gras
  let is_triv ← is_trivial_reaction rct_gras prd_gras
  match rct_gras, prd_gras with
  | [rct_gra], [p0, p1] =>
    if is_triv then pure noMatch else
      elimFold rct_gra p0 p1 (combinations2 (bond_keys rct_gra)) noMatch
  | _, _ => pure noMatch

/-- `insertion`: implemented as the reverse of an elimination. -/
def insertion (rct_gras prd_gras : List Graph) : Except ContractErr FinderResult := do
  let (rev_tras, prd_idxs, rct_idxs) ← elimination prd_gras rct_gras
  let tras :=
    if rev_tras.isEmpty then [] else
      let rct_gra := union_from_sequence rct_gras
      let prd_gra := union_from_sequence prd_gras
      rev_tras.map (fun tra => trans_reverse tra prd_gra rct_gra)
  pure (dedupTras tras, rct_idxs, prd_idxs)

/-! ## Substitution -/

/-- `substitution`. -/
def substitution (rct_gras prd_gras : List Graph) : Except ContractErr FinderResult := do
  assert_is_valid_reagent_graph_list rct_gras
  assert_is_valid_reagent_graph_list prd_gras
  let is_triv ← is_trivial_reaction rct_gras prd_gras
  match rct_gras, prd_gras with
  | [_, _], [_, _] =>
    if is_triv then pure noMatch else
      let rct_gra := union_from_sequence rct_gras
      let prd_gra := union_from_sequence prd_gras
      let test := fun (bkp : (Nat × Nat) × (Nat × Nat)) =>
        let rct_gra_ := remove_bonds rct_gra [bkp.1]
        let prd_gra_ := remove_bonds prd_gra [bkp.2]
        match full_isomorphism prd_gra_ rct_gra_ with
        | some p =>
          if p.isEmpty then none else
            some (Tra.from_data (some .SUBSTITUTION)
              [(papplyD p bkp.2.1, papplyD p bkp.2.2)] [bkp.1])
        | none => none
      let r := condLoop test (argsort_reactants rct_gras, argsort_reactants prd_gras)
        (listProd (bond_keys rct_gra) (bond_keys prd_gra)) noMatch
      pure (dedupTras r.1, r.2.1, r.2.2)
  | _, _ => pure noMatch

/-! ## The dispatcher -/

/-- `REACTION_FINDER_DCT`: the fixed, insertion-ordered dispatch table. -/
def REACTION_FINDER_DCT :
    List (RxnClass × (List Graph → List Graph → Except ContractErr FinderResult)) :=
  [(.TRIVIAL, trivial_reaction),
    (.HYDROGEN_MIGRATION, hydrogen_migration),
    (.HYDROGEN_ABSTRACTION, hydrogen_abstraction),
    (.ADDITION, addition),
    (.BETA_SCISSION, beta_scission),
    (.ELIMINATION, elimination),
    (.INSERTION, insertion),
    (.SUBSTITUTION, substitution)]

/-- The dispatcher's loop over the finder values: returns the first
non-empty result set, or the last finder's result. -/
def runFinders (rct_gras prd_gras : List Graph) :
    List (List Graph → List Graph → Except ContractErr FinderResult) →
      Except ContractErr FinderResult
  | [] => pure noMatch
  | [f] => f rct_gras prd_gras
  | f :: fs => do
    let r ← f rct_gras prd_gras
    if r.1.isEmpty then runFinders rct_gras prd_gras fs else pure r

/-- `classify`. -/
def classify (rct_gras prd_gras : List Graph) : Except ContractErr FinderResult :=
  if is_valid_reaction rct_gras prd_gras then
    runFinders rct_gras prd_gras (REACTION_FINDER_DCT.map Prod.snd)
  else
    throw .invalidReaction

/-- `trans.reaction_class` accessor. -/
def reaction_class (tra : Tra) : Option RxnClass := tra.rxnClass

/-- `classify_simple`: normalize (explicit hydrogens, no stereo, standard
disjoint keys), classify, and return only the first transformation's
class. -/
def classify_simple (rct_gras prd_gras : List Graph) :
    Except ContractErr (Option RxnClass) := do
  let rct_gras := rct_gras.map explicit
  let prd_gras := prd_gras.map explicit
  let rct_gras := rct_gras.map without_stereo_parities
  let prd_gras := prd_gras.map without_stereo_parities
  let (rct_gras, _) := standard_keys_for_sequence rct_gras
  let (prd_gras, _) := standard_keys_for_sequence prd_gras
  let (tras, _, _) ← classify rct_gras prd_gras
  pure (if tras.isEmpty then none else reaction_class (tras.headD ⟨none, [], []⟩))

/-! ## Forward product enumerators -/

/-- The Python-truthiness comparison used by `_unique_gras`: candidates
are compared through the union of their components (the source compares
the raw tuples when a candidate has exactly one fragment, which its
external oracle likewise reads as the single component). -/
def iso_tuple_truthy (gra uni : List Graph) : Bool :=
  !((full_isomorphism (union_from_sequence gra) (union_from_sequence uni)).getD []).isEmpty

/-- The accumulation loop of `_unique_gras`. -/
def uniqueGrasLoop : List (List Graph) → List (List Graph) → List (List Graph)
  | [], uni => uni
  | gra :: rest, uni =>
    uniqueGrasLoop rest (if uni.any (fun u => iso_tuple_truthy gra u) then uni else uni ++ [gra])

/-- `_unique_gras`: keep only candidates not isomorphic to an earlier
kept candidate. -/
def unique_gras : List (List Graph) → List (List Graph)
  | [] => []
  | g0 :: rest => uniqueGrasLoop rest [g0]

/-- Modelled from the spec: resonance-dominant radical-site enumeration
(an external collaborator; modelled as the valence-based unsaturated
sites). -/
def resonance_dominant_radical_atom_keys (g : Graph) : List Nat :=
  unsaturated_atom_keys g

/-- Modelled from the spec: symmetry-unique atoms of an element type (an
external collaborator; modelled as all atoms of that element). -/
def chem_unique_atoms_of_type (g : Graph) (symb : String) : List Nat :=
  (atom_keys g).filter (fun k => decide ((atomValD g k).symb = symb))

/-- Modelled from the spec: bond keys of a given order. -/
def bonds_of_order (g : Graph) (mbond : Nat) : List (Nat × Nat) :=
  (g.bnds.filter (fun e => decide (e.2.1 = mbond))).map Prod.fst

/-- Modelled from the spec: atom keys grouped by element symbol, queried
for one symbol. -/
def atom_symbol_idxs (g : Graph) (symb : String) : List Nat :=
  (atom_keys g).filter (fun k => decide ((atomValD g k).symb = symb))

/-- `prod_addition`. -/
def prod_addition (x_gra y_gra : Graph) : List (List Graph) :=
  let shift := x_gra.atms.length
  let y_gra := transform_keys y_gra (· + shift)
  unique_gras ((listProd (unsaturated_atom_keys x_gra) (unsaturated_atom_keys y_gra)).map
    (fun p => [add_bonds (union x_gra y_gra) [(p.1, p.2)]]))

/-- `_prod_group_loss` (hydrogen loss; the source appends bare graphs,
embedded as one-component candidates). -/
def prod_group_loss (gra : Graph) (grp : String) : List (List Graph) :=
  unique_gras ((atom_symbol_idxs gra grp).map (fun idx => [remove_atoms gra [idx]]))

/-- `prod_hydrogen_abstraction`. -/
def prod_hydrogen_abstraction (x_gra y_gra : Graph) : List (List Graph) :=
  let num_y_gra := y_gra.atms.length + 1
  let h_gra : Graph := ⟨[(num_y_gra, ⟨"H", 0, none⟩)], []⟩
  (prod_group_loss x_gra "H").flatMap (fun gra1 =>
    (prod_addition y_gra h_gra).map (fun gra2 => gra1 ++ gra2))

/-- `prod_hydrogen_migration`. -/
def prod_hydrogen_migration (gra : Graph) : List (List Graph) :=
  if gra.atms.length > 2 then
    let h_atm_key := maxKey gra + 1
    unique_gras ((listProd (chem_unique_atoms_of_type gra "H")
        (resonance_dominant_radical_atom_keys gra)).filterMap
      (fun c =>
        let gra2 := remove_atoms gra [c.1]
        let gra2_h := add_atom_explicit_hydrogen_keys gra2 c.2 [h_atm_key]
        if isoTruthy gra gra2_h then none else some [gra2_h]))
  else []

/-- `prod_beta_scission`. -/
def prod_beta_scission (gra : Graph) : List (List Graph) :=
  unique_gras ((listProd (resonance_dominant_radical_atom_keys gra) (bonds_of_order gra 1)).filterMap
    (fun c =>
      let rad_neighs := atom_neighbor_keys gra c.1
      if (rad_neighs.any (fun n => decide (n = c.2.1 ∨ n = c.2.2))) ∧
          c.1 ≠ c.2.1 ∧ c.1 ≠ c.2.2 then
        some (connected_components (remove_bonds gra [c.2]))
      else none))

/-- `prod_homolytic_scission`. -/
def prod_homolytic_scission (gra : Graph) : List (List Graph) :=
  unique_gras ((bonds_of_order gra 1).map
    (fun bk => connected_components (remove_bonds gra [bk])))

/-! ## Basic lemmas about the embedding -/

theorem assert_ok_iff (gras : List Graph) :
    assert_is_valid_reagent_graph_list gras = Except.ok () ↔ ValidReagents gras := by
  unfold assert_is_valid_reagent_graph_list ValidReagents
  split
  · split
    · split
      · simp_all [pure, Except.pure]
      · simp_all [throw, throwThe, MonadExceptOf.throw]
    · simp_all [throw, throwThe, MonadExceptOf.throw]
  · simp_all [throw, throwThe, MonadExceptOf.throw]

theorem assert_err_iff (gras : List Graph) :
    assert_is_valid_reagent_graph_list gras = Except.error .invalidReagents ↔
      ¬ ValidReagents gras := by
  unfold assert_is_valid_reagent_graph_list ValidReagents
  split
  · split
    · split
      · simp_all [pure, Except.pure]
      · simp_all [throw, throwThe, MonadExceptOf.throw]
    · simp_all [throw, throwThe, MonadExceptOf.throw]
  · simp_all [throw, throwThe, MonadExceptOf.throw]

theorem assert_cases (gras : List Graph) :
    assert_is_valid_reagent_graph_list gras = Except.ok () ∨
      assert_is_valid_reagent_graph_list gras = Except.error .invalidReagents := by
  unfold assert_is_valid_reagent_graph_list
  split
  · split
    · split
      · exact Or.inl rfl
      · exact Or.inr rfl
    · exact Or.inr rfl
  · exact Or.inr rfl

theorem condLoop_tras (test : α → Option Tra) (ab : List Nat × List Nat)
    (cands : List α) (st : FinderResult) :
    (condLoop test ab cands st).1 = st.1 ++ cands.filterMap test := by
  induction cands generalizing st with
  | nil => simp [condLoop]
  | cons c cs ih =>
    unfold condLoop
    cases h : test c with
    | some tra => simp [h, ih, List.filterMap_cons]
    | none => simp [h, ih, List.filterMap_cons]

theorem condLoop_idxs (test : α → Option Tra) (ab : List Nat × List Nat)
    (cands : List α) (st : FinderResult) :
    (condLoop test ab cands st).2 =
      if cands.filterMap test = [] then st.2 else (some ab.1, some ab.2) := by
  induction cands generalizing st with
  | nil => simp [condLoop]
  | cons c cs ih =>
    unfold condLoop
    cases h : test c with
    | some tra => simp [h, ih, List.filterMap_cons]
    | none => simp [h, ih, List.filterMap_cons]

/-- The shape invariant of a classifier result: an empty transformation
set comes with `none` orderings, a non-empty one with `some` orderings. -/
def ResOk (r : FinderResult) : Prop :=
  (r.1 = [] ∧ r.2.1 = none ∧ r.2.2 = none) ∨
    (r.1 ≠ [] ∧ (∃ a, r.2.1 = some a) ∧ ∃ b, r.2.2 = some b)

theorem condLoop_resOk (test : α → Option Tra) (ab : List Nat × List Nat)
    (cands : List α) : ResOk (condLoop test ab cands noMatch) := by
  have h1 := condLoop_tras test ab cands noMatch
  have h2 := condLoop_idxs test ab cands noMatch
  simp only [noMatch] at h1 h2
  unfold ResOk
  by_cases hc : cands.filterMap test = []
  · left
    refine ⟨by simp [h1, hc, noMatch], ?_, ?_⟩
    · have := congrArg Prod.fst h2
      simpa [hc, noMatch] using this
    · have := congrArg Prod.snd h2
      simpa [hc, noMatch] using this
  · right
    refine ⟨by simp [h1, hc, noMatch], ?_, ?_⟩
    · exact ⟨ab.1, by have := congrArg Prod.fst h2; simpa [hc] using this⟩
    · exact ⟨ab.2, by have := congrArg Prod.snd h2; simpa [hc] using this⟩

theorem noMatch_resOk : ResOk noMatch := by left; simp [noMatch]

theorem dedupTras_resOk (r : FinderResult) (h : ResOk r) :
    ResOk (dedupTras r.1, r.2.1, r.2.2) := by
  rcases h with ⟨he, hn1, hn2⟩ | ⟨he, hn1, hn2⟩
  · left
    exact ⟨by simp [he, dedupTras], hn1, hn2⟩
  · right
    refine ⟨?_, hn1, hn2⟩
    rw [dedupTras, Ne, List.dedup_eq_nil]
    exact he

theorem trivial_reaction_resOk (rct prd : List Graph) (r : FinderResult)
    (h : trivial_reaction rct prd = Except.ok r) : ResOk r := by
  unfold trivial_reaction at h
  rcases assert_cases rct with h1 | h1 <;> rw [h1] at h <;>
    simp only [Bind.bind, Except.bind] at h
  case inr => exact absurd h (by simp)
  rcases assert_cases prd with h2 | h2 <;> rw [h2] at h <;>
    simp only [Bind.bind, Except.bind] at h
  case inr => exact absurd h (by simp)
  split at h
  · cases htl : trivLoop rct prd with
    | some idxs =>
      rw [htl] at h
      simp only [pure, Except.pure, Except.ok.injEq] at h
      subst h
      right
      exact ⟨by simp, ⟨_, rfl⟩, ⟨_, rfl⟩⟩
    | none =>
      rw [htl] at h
      simp only [pure, Except.pure, Except.ok.injEq] at h
      subst h
      exact noMatch_resOk
  · simp only [pure, Except.pure, Except.ok.injEq] at h
    subst h
    exact noMatch_resOk

theorem hydrogen_migration_resOk (rct prd : List Graph) (r : FinderResult)
    (h : hydrogen_migration rct prd = Except.ok r) : ResOk r := by
  unfold hydrogen_migration at h
  rcases assert_cases rct with h1 | h1 <;> rw [h1] at h <;>
    simp only [Bind.bind, Except.bind] at h
  case inr => exact absurd h (by simp)
  rcases assert_cases prd with h2 | h2 <;> rw [h2] at h <;>
    simp only [Bind.bind, Except.bind] at h
  case inr => exact absurd h (by simp)
  cases ht : is_trivial_reaction rct prd with
  | error e => rw [ht] at h; exact absurd h (by simp)
  | ok b =>
    rw [ht] at h
    simp only [Except.bind] at h
    rcases rct with _ | ⟨g1, _ | ⟨g1b, rct'⟩⟩ <;>
      rcases prd with _ | ⟨p1, _ | ⟨p1b, prd'⟩⟩ <;>
      simp only [pure, Except.pure, Except.ok.injEq] at h <;>
      try (subst h; exact noMatch_resOk)
    cases b with
    | true =>
      simp only [if_true, pure, Except.pure, Except.ok.injEq] at h
      subst h; exact noMatch_resOk
    | false =>
      simp only [Bool.false_eq_true, if_false, pure, Except.pure, Except.ok.injEq] at h
      subst h
      exact condLoop_resOk _ _ _

theorem hydrogen_abstraction_resOk (rct prd : List Graph) (r : FinderResult)
    (h : hydrogen_abstraction rct prd = Except.ok r) : ResOk r := by
  unfold hydrogen_abstraction at h
  rcases assert_cases rct with h1 | h1 <;> rw [h1] at h <;>
    simp only [Bind.bind, Except.bind] at h
  case inr => exact absurd h (by simp)
  rcases assert_cases prd with h2 | h2 <;> rw [h2] at h <;>
    simp only [Bind.bind, Except.bind] at h
  case inr => exact absurd h (by simp)
  cases ht : is_trivial_reaction rct prd with
  | error e => rw [ht] at h; exact absurd h (by simp)
  | ok b =>
    rw [ht] at h
    simp only [Except.bind] at h
    rcases rct with _ | ⟨g1, _ | ⟨g1b, _ | ⟨g1c, rct'⟩⟩⟩ <;>
      rcases prd with _ | ⟨p1, _ | ⟨p1b, _ | ⟨p1c, prd'⟩⟩⟩ <;>
      simp only [pure, Except.pure, Except.ok.injEq] at h <;>
      try (subst h; exact noMatch_resOk)
    cases b with
    | true =>
      simp only [if_true, pure, Except.pure, Except.ok.injEq] at h
      subst h; exact noMatch_resOk
    | false =>
      simp only [Bool.false_eq_true, if_false] at h
      cases ha : argsort_hydrogen_abstraction [formula g1, formula g1b] [formula p1, formula p1b] with
      | none =>
        rw [ha] at h
        simp only [pure, Except.pure, Except.ok.injEq] at h
        subst h; exact noMatch_resOk
      | some c =>
        rw [ha] at h
        simp only [pure, Except.pure, Except.ok.injEq] at h
        subst h
        exact condLoop_resOk _ _ _

theorem addition_resOk (rct prd : List Graph) (r : FinderResult)
    (h : addition rct prd = Except.ok r) : ResOk r := by
  unfold addition at h
  rcases assert_cases rct with h1 | h1 <;> rw [h1] at h <;>
    simp only [Bind.bind, Except.bind] at h
  case inr => exact absurd h (by simp)
  rcases assert_cases prd with h2 | h2 <;> rw [h2] at h <;>
    simp only [Bind.bind, Except.bind] at h
  case inr => exact absurd h (by simp)
  cases ht : is_trivial_reaction rct prd with
  | error e => rw [ht] at h; exact absurd h (by simp)
  | ok b =>
    rw [ht] at h
    simp only [Except.bind] at h
    rcases rct with _ | ⟨g1, _ | ⟨g1b, _ | ⟨g1c, rct'⟩⟩⟩ <;>
      rcases prd with _ | ⟨p1, _ | ⟨p1b, prd'⟩⟩ <;>
      simp only [pure, Except.pure, Except.ok.injEq] at h <;>
      try (subst h; exact noMatch_resOk)
    cases b with
    | true =>
      simp only [if_true, pure, Except.pure, Except.ok.injEq] at h
      subst h; exact noMatch_resOk
    | false =>
      simp only [Bool.false_eq_true, if_false, pure, Except.pure, Except.ok.injEq] at h
      subst h
      exact condLoop_resOk _ _ _

theorem beta_scission_resOk (rct prd : List Graph) (r : FinderResult)
    (h : beta_scission rct prd = Except.ok r) : ResOk r := by
  unfold beta_scission at h
  cases ha : addition prd rct with
  | error e => rw [ha] at h; simp only [Bind.bind, Except.bind] at h; exact absurd h (by simp)
  | ok ra =>
    rw [ha] at h
    simp only [Bind.bind, Except.bind, pure, Except.pure, Except.ok.injEq] at h
    subst h
    rcases addition_resOk prd rct ra ha with ⟨he, hn1, hn2⟩ | ⟨he, ⟨a, hn1⟩, ⟨b, hn2⟩⟩
    · left
      refine ⟨?_, by simp [hn2], by simp [hn1]⟩
      simp [he, dedupTras]
    · right
      refine ⟨?_, ⟨b, by simp [hn2]⟩, ⟨a, by simp [hn1]⟩⟩
      have : ¬ ra.1.isEmpty := by simpa using he
      simp only [this, if_false]
      rw [dedupTras, Ne, List.dedup_eq_nil]
      simp [he]

theorem elimFold_resOk (rg p0 p1 : Graph) (cs : List ((Nat × Nat) × (Nat × Nat)))
    (st : FinderResult) (r : FinderResult)
    (h : elimFold rg p0 p1 cs st = Except.ok r) (hst : ResOk st) : ResOk r := by
  induction cs generalizing st with
  | nil =>
    simp only [elimFold, pure, Except.pure, Except.ok.injEq] at h
    subst h; exact hst
  | cons c cs ih =>
    simp only [elimFold] at h
    cases he : elimStep rg p0 p1 c with
    | error e => rw [he] at h; simp only [Bind.bind, Except.bind] at h; exact absurd h (by simp)
    | ok o =>
      rw [he] at h
      simp only [Bind.bind, Except.bind] at h
      cases o with
      | none => exact ih st h hst
      | some tok =>
        obtain ⟨tra, idxs⟩ := tok
        refine ih _ h ?_
        right
        exact ⟨by simp, ⟨_, rfl⟩, ⟨_, rfl⟩⟩

theorem elimination_resOk (rct prd : List Graph) (r : FinderResult)
    (h : elimination rct prd = Except.ok r) : ResOk r := by
  unfold elimination at h
  rcases assert_cases rct with h1 | h1 <;> rw [h1] at h <;>
    simp only [Bind.bind, Except.bind] at h
  case inr => exact absurd h (by simp)
  rcases assert_cases prd with h2 | h2 <;> rw [h2] at h <;>
    simp only [Bind.bind, Except.bind] at h
  case inr => exact absurd h (by simp)
  cases ht : is_trivial_reaction rct prd with
  | error e => rw [ht] at h; exact absurd h (by simp)
  | ok b =>
    rw [ht] at h
    simp only [Except.bind] at h
    rcases rct with _ | ⟨g1, _ | ⟨g1b, rct'⟩⟩ <;>
      rcases prd with _ | ⟨p1, _ | ⟨p1b, _ | ⟨p1c, prd'⟩⟩⟩ <;>
      simp only [pure, Except.pure, Except.ok.injEq] at h <;>
      try (subst h; exact noMatch_resOk)
    cases b with
    | true =>
      simp only [if_true, pure, Except.pure, Except.ok.injEq] at h
      subst h; exact noMatch_resOk
    | false =>
      simp only [Bool.false_eq_true, if_false] at h
      exact elimFold_resOk _ _ _ _ _ _ h noMatch_resOk

theorem insertion_resOk (rct prd : List Graph) (r : FinderResult)
    (h : insertion rct prd = Except.ok r) : ResOk r := by
  unfold insertion at h
  cases ha : elimination prd rct with
  | error e => rw [ha] at h; simp only [Bind.bind, Except.bind] at h; exact absurd h (by simp)
  | ok ra =>
    rw [ha] at h
    simp only [Bind.bind, Except.bind, pure, Except.pure, Except.ok.injEq] at h
    subst h
    rcases elimination_resOk prd rct ra ha with ⟨he, hn1, hn2⟩ | ⟨he, ⟨a, hn1⟩, ⟨b, hn2⟩⟩
    · left
      refine ⟨?_, by simp [hn2], by simp [hn1]⟩
      simp [he, dedupTras]
    · right
      refine ⟨?_, ⟨b, by simp [hn2]⟩, ⟨a, by simp [hn1]⟩⟩
      have : ¬ ra.1.isEmpty := by simpa using he
      simp only [this, if_false]
      rw [dedupTras, Ne, List.dedup_eq_nil]
      simp [he]

theorem substitution_resOk (rct prd : List Graph) (r : FinderResult)
    (h : substitution rct prd = Except.ok r) : ResOk r := by
  unfold substitution at h
  rcases assert_cases rct with h1 | h1 <;> rw [h1] at h <;>
    simp only [Bind.bind, Except.bind] at h
  case inr => exact absurd h (by simp)
  rcases assert_cases prd with h2 | h2 <;> rw [h2] at h <;>
    simp only [Bind.bind, Except.bind] at h
  case inr => exact absurd h (by simp)
  cases ht : is_trivial_reaction rct prd with
  | error e => rw [ht] at h; exact absurd h (by simp)
  | ok b =>
    rw [ht] at h
    simp only [Except.bind] at h
    rcases rct with _ | ⟨g1, _ | ⟨g1b, _ | ⟨g1c, rct'⟩⟩⟩ <;>
      rcases prd with _ | ⟨p1, _ | ⟨p1b, _ | ⟨p1c, prd'⟩⟩⟩ <;>
      simp only [pure, Except.pure, Except.ok.injEq] at h <;>
      try (subst h; exact noMatch_resOk)
    cases b with
    | true =>
      simp only [if_true, pure, Except.pure, Except.ok.injEq] at h
      subst h; exact noMatch_resOk
    | false =>
      simp only [Bool.false_eq_true, if_false, pure, Except.pure, Except.ok.injEq] at h
      subst h
      exact dedupTras_resOk _ (condLoop_resOk _ _ _)

theorem runFinders_resOk (rct prd : List Graph)
    (fs : List (List Graph → List Graph → Except ContractErr FinderResult))
    (hf : ∀ f ∈ fs, ∀ r, f rct prd = Except.ok r → ResOk r)
    (r : FinderResult) (h : runFinders rct prd fs = Except.ok r) : ResOk r := by
  induction fs with
  | nil =>
    simp only [runFinders, pure, Except.pure, Except.ok.injEq] at h
    subst h; exact noMatch_resOk
  | cons f fs ih =>
    cases fs with
    | nil =>
      simp only [runFinders] at h
      exact hf f (by simp) r h
    | cons f2 fs2 =>
      simp only [runFinders] at h
      cases he : f rct prd with
      | error e => rw [he] at h; simp only [Bind.bind, Except.bind] at h; exact absurd h (by simp)
      | ok r1 =>
        rw [he] at h
        simp only [Bind.bind, Except.bind] at h
        by_cases hemp : r1.1.isEmpty
        · rw [if_pos hemp] at h
          refine ih (fun g hg => hf g (List.mem_cons_of_mem _ hg)) h
        · rw [if_neg hemp] at h
          simp only [pure, Except.pure, Except.ok.injEq] at h
          subst h
          exact hf f (by simp) r1 he

theorem runFinders_cases (rct prd : List Graph)
    (fs : List (List Graph → List Graph → Except ContractErr FinderResult))
    (r : FinderResult) (h : runFinders rct prd fs = Except.ok r) :
    r = noMatch ∨ ∃ f ∈ fs, f rct prd = Except.ok r := by
  induction fs with
  | nil =>
    simp only [runFinders, pure, Except.pure, Except.ok.injEq] at h
    exact Or.inl h.symm
  | cons f fs ih =>
    cases fs with
    | nil =>
      simp only [runFinders] at h
      exact Or.inr ⟨f, by simp, h⟩
    | cons f2 fs2 =>
      simp only [runFinders] at h
      cases he : f rct prd with
      | error e => rw [he] at h; simp only [Bind.bind, Except.bind] at h; exact absurd h (by simp)
      | ok r1 =>
        rw [he] at h
        simp only [Bind.bind, Except.bind] at h
        by_cases hemp : r1.1.isEmpty
        · rw [if_pos hemp] at h
          rcases ih h with h' | ⟨g, hg, hgr⟩
          · exact Or.inl h'
          · exact Or.inr ⟨g, List.mem_cons_of_mem _ hg, hgr⟩
        · rw [if_neg hemp] at h
          simp only [pure, Except.pure, Except.ok.injEq] at h
          subst h
          exact Or.inr ⟨f, by simp, he⟩

/-! ## Concrete graphs used as witness and counterexample inputs -/

/-- A bare carbon atom value. -/
def aC : Atom := ⟨"C", 0, none⟩

/-- A bare oxygen atom value. -/
def aO : Atom := ⟨"O", 0, none⟩

/-- A hydrogen atom value. -/
def aH : Atom := ⟨"H", 0, none⟩

/-- A single carbon atom at key 0. -/
def gC0 : Graph := ⟨[(0, aC)], []⟩

/-- A single carbon atom at key 5. -/
def gC5 : Graph := ⟨[(5, aC)], []⟩

/-- A single carbon atom at key 2. -/
def gC2 : Graph := ⟨[(2, aC)], []⟩

/-- A single oxygen atom at key 1. -/
def gO1 : Graph := ⟨[(1, aO)], []⟩

/-- A single oxygen atom at key 7. -/
def gO7 : Graph := ⟨[(7, aO)], []⟩

/-- A single hydrogen atom at key 0. -/
def gH0 : Graph := ⟨[(0, aH)], []⟩

/-- A single hydrogen atom at key 1. -/
def gH1 : Graph := ⟨[(1, aH)], []⟩

/-- Molecular hydrogen on keys 2 and 3. -/
def gH2mol : Graph := ⟨[(2, aH), (3, aH)], [((2, 3), (1, none))]⟩

/-- Methane: one carbon (key 0) with four explicit hydrogens. -/
def gCH4 : Graph :=
  ⟨[(0, aC), (1, aH), (2, aH), (3, aH), (4, aH)],
    [((0, 1), (1, none)), ((0, 2), (1, none)), ((0, 3), (1, none)), ((0, 4), (1, none))]⟩

/-- Ethane: two carbons with six explicit hydrogens. -/
def gC2H6 : Graph :=
  ⟨[(0, aC), (1, aC), (2, aH), (3, aH), (4, aH), (5, aH), (6, aH), (7, aH)],
    [((0, 1), (1, none)), ((0, 2), (1, none)), ((0, 3), (1, none)), ((0, 4), (1, none)),
      ((1, 5), (1, none)), ((1, 6), (1, none)), ((1, 7), (1, none))]⟩

/-! ## Error characterization of the classifiers -/

theorem trivial_reaction_ok (rct prd : List Graph)
    (hr : ValidReagents rct) (hp : ValidReagents prd) :
    ∃ r, trivial_reaction rct prd = Except.ok r := by
  unfold trivial_reaction
  rw [(assert_ok_iff rct).mpr hr]
  simp only [Bind.bind, Except.bind]
  rw [(assert_ok_iff prd).mpr hp]
  simp only [Except.bind]
  split
  · cases htl : trivLoop rct prd <;> exact ⟨_, rfl⟩
  · exact ⟨_, rfl⟩

theorem is_trivial_reaction_ok (rct prd : List Graph)
    (hr : ValidReagents rct) (hp : ValidReagents prd) :
    ∃ b, is_trivial_reaction rct prd = Except.ok b := by
  obtain ⟨r, hrr⟩ := trivial_reaction_ok rct prd hr hp
  unfold is_trivial_reaction
  rw [hrr]
  exact ⟨_, rfl⟩

theorem hydrogen_migration_ok (rct prd : List Graph)
    (hr : ValidReagents rct) (hp : ValidReagents prd) :
    ∃ r, hydrogen_migration rct prd = Except.ok r := by
  obtain ⟨b, htriv⟩ := is_trivial_reaction_ok rct prd hr hp
  unfold hydrogen_migration
  rw [(assert_ok_iff rct).mpr hr]
  simp only [Bind.bind, Except.bind]
  rw [(assert_ok_iff prd).mpr hp]
  simp only [Except.bind]
  rw [htriv]
  simp only [Except.bind]
  rcases rct with _ | ⟨g1, _ | ⟨g1b, rct'⟩⟩ <;>
    rcases prd with _ | ⟨p1, _ | ⟨p1b, prd'⟩⟩ <;>
    cases b <;> exact ⟨_, rfl⟩

theorem exists_ok_of_no_error (x : Except ContractErr FinderResult)
    (h : ∀ e, x ≠ Except.error e) : ∃ r, x = Except.ok r := by
  cases x with
  | error e => exact absurd rfl (h e)
  | ok r => exact ⟨r, rfl⟩

theorem hydrogen_abstraction_ok (rct prd : List Graph)
    (hr : ValidReagents rct) (hp : ValidReagents prd) :
    ∃ r, hydrogen_abstraction rct prd = Except.ok r := by
  obtain ⟨b, htriv⟩ := is_trivial_reaction_ok rct prd hr hp
  refine exists_ok_of_no_error _ ?_
  intro e he
  unfold hydrogen_abstraction at he
  rw [(assert_ok_iff rct).mpr hr] at he
  simp only [Bind.bind, Except.bind] at he
  rw [(assert_ok_iff prd).mpr hp] at he
  simp only [Except.bind] at he
  rw [htriv] at he
  simp only [Except.bind] at he
  split at he <;> try simp [pure, Except.pure] at he
  split at he <;> try simp [pure, Except.pure] at he
  split at he <;> simp [pure, Except.pure] at he

theorem addition_ok (rct prd : List Graph)
    (hr : ValidReagents rct) (hp : ValidReagents prd) :
    ∃ r, addition rct prd = Except.ok r := by
  obtain ⟨b, htriv⟩ := is_trivial_reaction_ok rct prd hr hp
  unfold addition
  rw [(assert_ok_iff rct).mpr hr]
  simp only [Bind.bind, Except.bind]
  rw [(assert_ok_iff prd).mpr hp]
  simp only [Except.bind]
  rw [htriv]
  simp only [Except.bind]
  rcases rct with _ | ⟨g1, _ | ⟨g1b, _ | ⟨g1c, rct'⟩⟩⟩ <;>
    rcases prd with _ | ⟨p1, _ | ⟨p1b, prd'⟩⟩ <;>
    cases b <;> exact ⟨_, rfl⟩

theorem beta_scission_ok (rct prd : List Graph)
    (hr : ValidReagents rct) (hp : ValidReagents prd) :
    ∃ r, beta_scission rct prd = Except.ok r := by
  obtain ⟨r0, ha⟩ := addition_ok prd rct hp hr
  unfold beta_scission
  rw [ha]
  exact ⟨_, rfl⟩

theorem substitution_ok (rct prd : List Graph)
    (hr : ValidReagents rct) (hp : ValidReagents prd) :
    ∃ r, substitution rct prd = Except.ok r := by
  obtain ⟨b, htriv⟩ := is_trivial_reaction_ok rct prd hr hp
  unfold substitution
  rw [(assert_ok_iff rct).mpr hr]
  simp only [Bind.bind, Except.bind]
  rw [(assert_ok_iff prd).mpr hp]
  simp only [Except.bind]
  rw [htriv]
  simp only [Except.bind]
  rcases rct with _ | ⟨g1, _ | ⟨g1b, _ | ⟨g1c, rct'⟩⟩⟩ <;>
    rcases prd with _ | ⟨p1, _ | ⟨p1b, _ | ⟨p1c, prd'⟩⟩⟩ <;>
    cases b <;> exact ⟨_, rfl⟩

theorem elimStep_err (rg p0 p1 : Graph) (c : (Nat × Nat) × (Nat × Nat))
    (e : ContractErr) (h : elimStep rg p0 p1 c = Except.error e) :
    e = .assertionFailed := by
  unfold elimStep at h
  simp only [] at h
  split at h
  · simp [pure, Except.pure] at h
  · split at h
    · split at h
      · simp [pure, Except.pure] at h
      · split at h
        · simp [pure, Except.pure] at h
        · split at h
          · simp [pure, Except.pure] at h
          · simp only [throw, throwThe, MonadExceptOf.throw, Except.error.injEq] at h
            exact h.symm
    · simp [pure, Except.pure] at h

theorem elimFold_ok_or_assert (rg p0 p1 : Graph) (cs : List ((Nat × Nat) × (Nat × Nat)))
    (st : FinderResult) :
    (∃ r, elimFold rg p0 p1 cs st = Except.ok r) ∨
      elimFold rg p0 p1 cs st = Except.error .assertionFailed := by
  induction cs generalizing st with
  | nil => exact Or.inl ⟨_, rfl⟩
  | cons c cs ih =>
    simp only [elimFold]
    cases he : elimStep rg p0 p1 c with
    | error e =>
      have := elimStep_err _ _ _ _ _ he
      subst this
      right
      simp [Bind.bind, Except.bind]
    | ok o =>
      simp only [Bind.bind, Except.bind]
      exact ih _

theorem elimination_ok_or_assert (rct prd : List Graph)
    (hr : ValidReagents rct) (hp : ValidReagents prd) :
    (∃ r, elimination rct prd = Except.ok r) ∨
      elimination rct prd = Except.error .assertionFailed := by
  obtain ⟨b, htriv⟩ := is_trivial_reaction_ok rct prd hr hp
  unfold elimination
  rw [(assert_ok_iff rct).mpr hr]
  simp only [Bind.bind, Except.bind]
  rw [(assert_ok_iff prd).mpr hp]
  simp only [Except.bind]
  rw [htriv]
  simp only [Except.bind]
  rcases rct with _ | ⟨g1, _ | ⟨g1b, rct'⟩⟩ <;>
    rcases prd with _ | ⟨p1, _ | ⟨p1b, _ | ⟨p1c, prd'⟩⟩⟩ <;>
    cases b <;> try exact Or.inl ⟨_, rfl⟩
  exact elimFold_ok_or_assert _ _ _ _ _

theorem insertion_ok_or_assert (rct prd : List Graph)
    (hr : ValidReagents rct) (hp : ValidReagents prd) :
    (∃ r, insertion rct prd = Except.ok r) ∨
      insertion rct prd = Except.error .assertionFailed := by
  unfold insertion
  rcases elimination_ok_or_assert prd rct hp hr with ⟨r0, he⟩ | he <;> rw [he]
  · exact Or.inl ⟨_, rfl⟩
  · right
    simp [Bind.bind, Except.bind]

theorem trivial_reaction_err (rct prd : List Graph)
    (h : ¬(ValidReagents rct ∧ ValidReagents prd)) :
    trivial_reaction rct prd = Except.error .invalidReagents := by
  unfold trivial_reaction
  by_cases hr : ValidReagents rct
  · have hp : ¬ ValidReagents prd := fun hp => h ⟨hr, hp⟩
    rw [(assert_ok_iff rct).mpr hr]
    simp only [Bind.bind, Except.bind]
    rw [(assert_err_iff prd).mpr hp]
    try simp [Except.bind]
  · rw [(assert_err_iff rct).mpr hr]
    simp [Bind.bind, Except.bind]

theorem hydrogen_migration_err (rct prd : List Graph)
    (h : ¬(ValidReagents rct ∧ ValidReagents prd)) :
    hydrogen_migration rct prd = Except.error .invalidReagents := by
  unfold hydrogen_migration
  by_cases hr : ValidReagents rct
  · have hp : ¬ ValidReagents prd := fun hp => h ⟨hr, hp⟩
    rw [(assert_ok_iff rct).mpr hr]
    simp only [Bind.bind, Except.bind]
    rw [(assert_err_iff prd).mpr hp]
    try simp [Except.bind]
  · rw [(assert_err_iff rct).mpr hr]
    simp [Bind.bind, Except.bind]

theorem hydrogen_abstraction_err (rct prd : List Graph)
    (h : ¬(ValidReagents rct ∧ ValidReagents prd)) :
    hydrogen_abstraction rct prd = Except.error .invalidReagents := by
  unfold hydrogen_abstraction
  by_cases hr : ValidReagents rct
  · have hp : ¬ ValidReagents prd := fun hp => h ⟨hr, hp⟩
    rw [(assert_ok_iff rct).mpr hr]
    simp only [Bind.bind, Except.bind]
    rw [(assert_err_iff prd).mpr hp]
    try simp [Except.bind]
  · rw [(assert_err_iff rct).mpr hr]
    simp [Bind.bind, Except.bind]

theorem addition_err (rct prd : List Graph)
    (h : ¬(ValidReagents rct ∧ ValidReagents prd)) :
    addition rct prd = Except.error .invalidReagents := by
  unfold addition
  by_cases hr : ValidReagents rct
  · have hp : ¬ ValidReagents prd := fun hp => h ⟨hr, hp⟩
    rw [(assert_ok_iff rct).mpr hr]
    simp only [Bind.bind, Except.bind]
    rw [(assert_err_iff prd).mpr hp]
    try simp [Except.bind]
  · rw [(assert_err_iff rct).mpr hr]
    simp [Bind.bind, Except.bind]

theorem beta_scission_err (rct prd : List Graph)
    (h : ¬(ValidReagents rct ∧ ValidReagents prd)) :
    beta_scission rct prd = Except.error .invalidReagents := by
  unfold beta_scission
  rw [addition_err prd rct (fun hc => h ⟨hc.2, hc.1⟩)]
  simp [Bind.bind, Except.bind]

theorem elimination_err (rct prd : List Graph)
    (h : ¬(ValidReagents rct ∧ ValidReagents prd)) :
    elimination rct prd = Except.error .invalidReagents := by
  unfold elimination
  by_cases hr : ValidReagents rct
  · have hp : ¬ ValidReagents prd := fun hp => h ⟨hr, hp⟩
    rw [(assert_ok_iff rct).mpr hr]
    simp only [Bind.bind, Except.bind]
    rw [(assert_err_iff prd).mpr hp]
    try simp [Except.bind]
  · rw [(assert_err_iff rct).mpr hr]
    simp [Bind.bind, Except.bind]

theorem insertion_err (rct prd : List Graph)
    (h : ¬(ValidReagents rct ∧ ValidReagents prd)) :
    insertion rct prd = Except.error .invalidReagents := by
  unfold insertion
  rw [elimination_err prd rct (fun hc => h ⟨hc.2, hc.1⟩)]
  simp [Bind.bind, Except.bind]

theorem substitution_err (rct prd : List Graph)
    (h : ¬(ValidReagents rct ∧ ValidReagents prd)) :
    substitution rct prd = Except.error .invalidReagents := by
  unfold substitution
  by_cases hr : ValidReagents rct
  · have hp : ¬ ValidReagents prd := fun hp => h ⟨hr, hp⟩
    rw [(assert_ok_iff rct).mpr hr]
    simp only [Bind.bind, Except.bind]
    rw [(assert_err_iff prd).mpr hp]
    try simp [Except.bind]
  · rw [(assert_err_iff rct).mpr hr]
    simp [Bind.bind, Except.bind]

theorem err_iff_aux {F : Except ContractErr FinderResult} {VV : Prop}
    (ha : ¬ VV → F = Except.error .invalidReagents)
    (hb : VV → (∃ r, F = Except.ok r) ∨ F = Except.error .assertionFailed) :
    F = Except.error .invalidReagents ↔ ¬ VV := by
  constructor
  · intro h hvv
    rcases hb hvv with ⟨r, hr⟩ | hr
    · rw [h] at hr; simp at hr
    · rw [h] at hr
      simp only [Except.error.injEq] at hr
      cases hr
  · exact ha

theorem no_invrxn_aux {F : Except ContractErr FinderResult} {VV : Prop}
    (ha : ¬ VV → F = Except.error .invalidReagents)
    (hb : VV → (∃ r, F = Except.ok r) ∨ F = Except.error .assertionFailed)
    (hd : Decidable VV) :
    ∀ e, F = Except.error e → e ≠ .invalidReaction := by
  intro e he hcontra
  subst hcontra
  rcases hd with hvv | hvv
  · have := ha hvv
    rw [he] at this
    simp only [Except.error.injEq] at this
    cases this
  · rcases hb hvv with ⟨r, hr⟩ | hr
    · rw [he] at hr; simp at hr
    · rw [he] at hr
      simp only [Except.error.injEq] at hr
      cases hr

theorem runFinders_no_invalidReaction (rct prd : List Graph)
    (fs : List (List Graph → List Graph → Except ContractErr FinderResult))
    (hf : ∀ f ∈ fs, ∀ e, f rct prd = Except.error e → e ≠ ContractErr.invalidReaction) :
    runFinders rct prd fs ≠ Except.error .invalidReaction := by
  induction fs with
  | nil => simp [runFinders, pure, Except.pure]
  | cons f fs ih =>
    cases fs with
    | nil =>
      simp only [runFinders]
      intro h
      exact hf f (by simp) _ h rfl
    | cons f2 fs2 =>
      simp only [runFinders]
      cases he : f rct prd with
      | error e =>
        simp only [Bind.bind, Except.bind]
        intro h
        simp only [Except.error.injEq] at h
        exact hf f (by simp) e he h
      | ok r1 =>
        simp only [Bind.bind, Except.bind]
        by_cases hemp : r1.1.isEmpty
        · rw [if_pos hemp]
          exact ih (fun g hg => hf g (List.mem_cons_of_mem _ hg))
        · rw [if_neg hemp]
          simp [pure, Except.pure]

/-! ## Claims C7 and C8 -/

/-- C8: every classifier of the dispatch table validates its reagent
lists and fails with the reagent contract error (producing no result)
exactly when one of its input lists has a graph with implicit hydrogens,
or a stereo parity, or sharing an atom key with another graph of the same
list. -/
theorem C8_reagent_validation (rct prd : List Graph) :
    (trivial_reaction rct prd = Except.error .invalidReagents ↔
        ¬ (ValidReagents rct ∧ ValidReagents prd)) ∧
      (hydrogen_migration rct prd = Except.error .invalidReagents ↔
        ¬ (ValidReagents rct ∧ ValidReagents prd)) ∧
      (hydrogen_abstraction rct prd = Except.error .invalidReagents ↔
        ¬ (ValidReagents rct ∧ ValidReagents prd)) ∧
      (addition rct prd = Except.error .invalidReagents ↔
        ¬ (ValidReagents rct ∧ ValidReagents prd)) ∧
      (beta_scission rct prd = Except.error .invalidReagents ↔
        ¬ (ValidReagents rct ∧ ValidReagents prd)) ∧
      (elimination rct prd = Except.error .invalidReagents ↔
        ¬ (ValidReagents rct ∧ ValidReagents prd)) ∧
      (insertion rct prd = Except.error .invalidReagents ↔
        ¬ (ValidReagents rct ∧ ValidReagents prd)) ∧
      (substitution rct prd = Except.error .invalidReagents ↔
        ¬ (ValidReagents rct ∧ ValidReagents prd)) := by
  refine ⟨?_, ?_, ?_, ?_, ?_, ?_, ?_, ?_⟩
  · exact err_iff_aux (trivial_reaction_err rct prd)
      (fun hv => Or.inl (trivial_reaction_ok rct prd hv.1 hv.2))
  · exact err_iff_aux (hydrogen_migration_err rct prd)
      (fun hv => Or.inl (hydrogen_migration_ok rct prd hv.1 hv.2))
  · exact err_iff_aux (hydrogen_abstraction_err rct prd)
      (fun hv => Or.inl (hydrogen_abstraction_ok rct prd hv.1 hv.2))
  · exact err_iff_aux (addition_err rct prd)
      (fun hv => Or.inl (addition_ok rct prd hv.1 hv.2))
  · exact err_iff_aux (beta_scission_err rct prd)
      (fun hv => Or.inl (beta_scission_ok rct prd hv.1 hv.2))
  · exact err_iff_aux (elimination_err rct prd)
      (fun hv => elimination_ok_or_assert rct prd hv.1 hv.2)
  · exact err_iff_aux (insertion_err rct prd)
      (fun hv => insertion_ok_or_assert rct prd hv.1 hv.2)
  · exact err_iff_aux (substitution_err rct prd)
      (fun hv => Or.inl (substitution_ok rct prd hv.1 hv.2))

/-- C7: `classify` fails with the formula contract error exactly when the
combined molecular formulas of reactants and products differ, before any
classifier contributes a result; in particular CH4 against C2H6 fails
this way. -/
theorem C7_formula_balance_gate :
    (∀ rct prd : List Graph,
        classify rct prd = Except.error .invalidReaction ↔
          ¬ is_valid_reaction rct prd) ∧
      classify [gCH4] [gC2H6] = Except.error .invalidReaction := by
  constructor
  · intro rct prd
    constructor
    · intro h hv
      unfold classify at h
      rw [if_pos hv] at h
      refine runFinders_no_invalidReaction rct prd _ ?_ h
      intro f hf e he
      simp only [REACTION_FINDER_DCT, List.map_cons, List.map_nil, List.mem_cons,
        List.not_mem_nil, or_false] at hf
      rcases hf with rfl | rfl | rfl | rfl | rfl | rfl | rfl | rfl
      · exact no_invrxn_aux (trivial_reaction_err rct prd)
          (fun hvv => Or.inl (trivial_reaction_ok rct prd hvv.1 hvv.2)) inferInstance e he
      · exact no_invrxn_aux (hydrogen_migration_err rct prd)
          (fun hvv => Or.inl (hydrogen_migration_ok rct prd hvv.1 hvv.2)) inferInstance e he
      · exact no_invrxn_aux (hydrogen_abstraction_err rct prd)
          (fun hvv => Or.inl (hydrogen_abstraction_ok rct prd hvv.1 hvv.2)) inferInstance e he
      · exact no_invrxn_aux (addition_err rct prd)
          (fun hvv => Or.inl (addition_ok rct prd hvv.1 hvv.2)) inferInstance e he
      · exact no_invrxn_aux (beta_scission_err rct prd)
          (fun hvv => Or.inl (beta_scission_ok rct prd hvv.1 hvv.2)) inferInstance e he
      · exact no_invrxn_aux (elimination_err rct prd)
          (fun hvv => elimination_ok_or_assert rct prd hvv.1 hvv.2) inferInstance e he
      · exact no_invrxn_aux (insertion_err rct prd)
          (fun hvv => insertion_ok_or_assert rct prd hvv.1 hvv.2) inferInstance e he
      · exact no_invrxn_aux (substitution_err rct prd)
          (fun hvv => Or.inl (substitution_ok rct prd hvv.1 hvv.2)) inferInstance e he
    · intro hv
      unfold classify
      rw [if_neg hv]
      rfl
  · rfl

/-! ## Claim C1 -/

/-- C1: for reagent lists that pass reagent validation and the
formula-balance check, `classify` returns either a non-empty
transformation tuple with non-None reactant and product orderings, or an
empty tuple with both orderings None — never a mix. -/
theorem C1_classify_result_shape (rct prd : List Graph) (r : FinderResult)
    (_hrv : ValidReagents rct) (_hpv : ValidReagents prd)
    (hv : is_valid_reaction rct prd)
    (h : classify rct prd = Except.ok r) :
    (r.1 = [] ∧ r.2.1 = none ∧ r.2.2 = none) ∨
      (r.1 ≠ [] ∧ (∃ a, r.2.1 = some a) ∧ ∃ b, r.2.2 = some b) := by
  unfold classify at h
  rw [if_pos hv] at h
  refine runFinders_resOk rct prd _ ?_ r h
  intro f hf r' h'
  simp only [REACTION_FINDER_DCT, List.map_cons, List.map_nil, List.mem_cons,
    List.not_mem_nil, or_false] at hf
  rcases hf with rfl | rfl | rfl | rfl | rfl | rfl | rfl | rfl
  · exact trivial_reaction_resOk _ _ _ h'
  · exact hydrogen_migration_resOk _ _ _ h'
  · exact hydrogen_abstraction_resOk _ _ _ h'
  · exact addition_resOk _ _ _ h'
  · exact beta_scission_resOk _ _ _ h'
  · exact elimination_resOk _ _ _ h'
  · exact insertion_resOk _ _ _ h'
  · exact substitution_resOk _ _ _ h'

/-! ## Reaction classes produced by each classifier -/

theorem from_data_class (cls : Option RxnClass) (frm brk : List (Nat × Nat)) :
    (Tra.from_data cls frm brk).rxnClass = cls := rfl

theorem trans_reverse_class (tra : Tra) (g1 g2 : Graph) :
    (trans_reverse tra g1 g2).rxnClass = tra.rxnClass.bind reverse_class := rfl

theorem condLoop_mem (test : α → Option Tra) (ab : List Nat × List Nat)
    (cands : List α) (t : Tra) (h : t ∈ (condLoop test ab cands noMatch).1) :
    ∃ c ∈ cands, test c = some t := by
  rw [condLoop_tras] at h
  simp only [noMatch, List.nil_append] at h
  exact List.mem_filterMap.mp h

theorem trivial_reaction_class (rct prd : List Graph) (r : FinderResult)
    (h : trivial_reaction rct prd = Except.ok r) :
    ∀ t ∈ r.1, t.rxnClass = some RxnClass.TRIVIAL := by
  unfold trivial_reaction at h
  rcases assert_cases rct with h1 | h1 <;> rw [h1] at h <;>
    simp only [Bind.bind, Except.bind] at h
  case inr => exact absurd h (by simp)
  rcases assert_cases prd with h2 | h2 <;> rw [h2] at h <;>
    simp only [Bind.bind, Except.bind] at h
  case inr => exact absurd h (by simp)
  split at h
  · cases htl : trivLoop rct prd with
    | some idxs =>
      rw [htl] at h
      simp only [pure, Except.pure, Except.ok.injEq] at h
      subst h
      intro t ht
      simp only [List.mem_singleton] at ht
      subst ht
      rfl
    | none =>
      rw [htl] at h
      simp only [pure, Except.pure, Except.ok.injEq] at h
      subst h
      intro t ht
      simp [noMatch] at ht
  · simp only [pure, Except.pure, Except.ok.injEq] at h
    subst h
    intro t ht
    simp [noMatch] at ht

theorem hydrogen_migration_class (rct prd : List Graph) (r : FinderResult)
    (h : hydrogen_migration rct prd = Except.ok r) :
    ∀ t ∈ r.1, t.rxnClass = some RxnClass.HYDROGEN_MIGRATION := by
  unfold hydrogen_migration at h
  rcases assert_cases rct with h1 | h1 <;> rw [h1] at h <;>
    simp only [Bind.bind, Except.bind] at h
  case inr => exact absurd h (by simp)
  rcases assert_cases prd with h2 | h2 <;> rw [h2] at h <;>
    simp only [Bind.bind, Except.bind] at h
  case inr => exact absurd h (by simp)
  cases ht : is_trivial_reaction rct prd with
  | error e => rw [ht] at h; exact absurd h (by simp)
  | ok b =>
    rw [ht] at h
    simp only [Except.bind] at h
    rcases rct with _ | ⟨g1, _ | ⟨g1b, rct'⟩⟩ <;>
      rcases prd with _ | ⟨p1, _ | ⟨p1b, prd'⟩⟩ <;>
      simp only [pure, Except.pure, Except.ok.injEq] at h <;>
      try (subst h; intro t ht'; simp [noMatch] at ht')
    cases b with
    | true =>
      simp only [if_true, pure, Except.pure, Except.ok.injEq] at h
      subst h; intro t ht'; simp [noMatch] at ht'
    | false =>
      simp only [Bool.false_eq_true, if_false, pure, Except.pure, Except.ok.injEq] at h
      subst h
      intro t ht'
      obtain ⟨c, _, hc⟩ := condLoop_mem _ _ _ t ht'
      cases hfi : full_isomorphism
          (add_atom_explicit_hydrogen_keys p1 c.2 [maxKey p1 + 1])
          (add_atom_explicit_hydrogen_keys g1 c.1 [maxKey g1 + 1]) with
      | none => rw [hfi] at hc; simp at hc
      | some p =>
        rw [hfi] at hc
        by_cases hemp : p.isEmpty <;> simp [hemp] at hc
        rw [← hc]
        rfl

theorem hydrogen_abstraction_class (rct prd : List Graph) (r : FinderResult)
    (h : hydrogen_abstraction rct prd = Except.ok r) :
    ∀ t ∈ r.1, t.rxnClass = some RxnClass.HYDROGEN_ABSTRACTION := by
  unfold hydrogen_abstraction at h
  rcases assert_cases rct with h1 | h1 <;> rw [h1] at h <;>
    simp only [Bind.bind, Except.bind] at h
  case inr => exact absurd h (by simp)
  rcases assert_cases prd with h2 | h2 <;> rw [h2] at h <;>
    simp only [Bind.bind, Except.bind] at h
  case inr => exact absurd h (by simp)
  cases ht : is_trivial_reaction rct prd with
  | error e => rw [ht] at h; exact absurd h (by simp)
  | ok b =>
    rw [ht] at h
    simp only [Except.bind] at h
    rcases rct with _ | ⟨g1, _ | ⟨g1b, _ | ⟨g1c, rct'⟩⟩⟩ <;>
      rcases prd with _ | ⟨p1, _ | ⟨p1b, _ | ⟨p1c, prd'⟩⟩⟩ <;>
      simp only [pure, Except.pure, Except.ok.injEq] at h <;>
      try (subst h; intro t ht'; simp [noMatch] at ht')
    cases b with
    | true =>
      simp only [if_true, pure, Except.pure, Except.ok.injEq] at h
      subst h; intro t ht'; simp [noMatch] at ht'
    | false =>
      simp only [Bool.false_eq_true, if_false] at h
      cases ha : argsort_hydrogen_abstraction [formula g1, formula g1b]
          [formula p1, formula p1b] with
      | none =>
        rw [ha] at h
        simp only [pure, Except.pure, Except.ok.injEq] at h
        subst h; intro t ht'; simp [noMatch] at ht'
      | some c =>
        obtain ⟨ri, pi⟩ := c
        rw [ha] at h
        simp only [pure, Except.pure, Except.ok.injEq] at h
        subst h
        intro t ht'
        obtain ⟨c', _, hc⟩ := condLoop_mem _ _ _ t ht'
        simp only [Option.some.injEq] at hc
        rw [← hc]
        rfl

theorem addition_class (rct prd : List Graph) (r : FinderResult)
    (h : addition rct prd = Except.ok r) :
    ∀ t ∈ r.1, t.rxnClass = some RxnClass.ADDITION := by
  unfold addition at h
  rcases assert_cases rct with h1 | h1 <;> rw [h1] at h <;>
    simp only [Bind.bind, Except.bind] at h
  case inr => exact absurd h (by simp)
  rcases assert_cases prd with h2 | h2 <;> rw [h2] at h <;>
    simp only [Bind.bind, Except.bind] at h
  case inr => exact absurd h (by simp)
  cases ht : is_trivial_reaction rct prd with
  | error e => rw [ht] at h; exact absurd h (by simp)
  | ok b =>
    rw [ht] at h
    simp only [Except.bind] at h
    rcases rct with _ | ⟨g1, _ | ⟨g1b, _ | ⟨g1c, rct'⟩⟩⟩ <;>
      rcases prd with _ | ⟨p1, _ | ⟨p1b, prd'⟩⟩ <;>
      simp only [pure, Except.pure, Except.ok.injEq] at h <;>
      try (subst h; intro t ht'; simp [noMatch] at ht')
    cases b with
    | true =>
      simp only [if_true, pure, Except.pure, Except.ok.injEq] at h
      subst h; intro t ht'; simp [noMatch] at ht'
    | false =>
      simp only [Bool.false_eq_true, if_false, pure, Except.pure, Except.ok.injEq] at h
      subst h
      intro t ht'
      obtain ⟨c, _, hc⟩ := condLoop_mem _ _ _ t ht'
      cases hfi : full_isomorphism
          (add_bonds (union g1 g1b) [(c.1, c.2)]) p1 with
      | none => rw [hfi] at hc; simp at hc
      | some p =>
        rw [hfi] at hc
        by_cases hemp : p.isEmpty <;> simp [hemp] at hc
        rw [← hc]
        rfl

theorem beta_scission_class (rct prd : List Graph) (r : FinderResult)
    (h : beta_scission rct prd = Except.ok r) :
    ∀ t ∈ r.1, t.rxnClass = some RxnClass.BETA_SCISSION := by
  unfold beta_scission at h
  cases ha : addition prd rct with
  | error e => rw [ha] at h; simp only [Bind.bind, Except.bind] at h; exact absurd h (by simp)
  | ok ra =>
    rw [ha] at h
    simp only [Bind.bind, Except.bind, pure, Except.pure, Except.ok.injEq] at h
    subst h
    intro t ht
    simp only [dedupTras, List.mem_dedup] at ht
    by_cases hemp : ra.1.isEmpty
    · rw [if_pos hemp] at ht
      simp at ht
    · rw [if_neg hemp] at ht
      obtain ⟨t', ht', rfl⟩ := List.mem_map.mp ht
      rw [trans_reverse_class,
        addition_class prd rct ra ha t' ht']
      rfl

theorem elimStep_some_class (rg p0 p1 : Graph) (c : (Nat × Nat) × (Nat × Nat))
    (tra : Tra) (idxs : List Nat × List Nat)
    (h : elimStep rg p0 p1 c = Except.ok (some (tra, idxs))) :
    tra.rxnClass = some RxnClass.ELIMINATION := by
  unfold elimStep at h
  simp only [] at h
  split at h
  · simp [pure, Except.pure] at h
  · split at h
    · split at h
      · simp [pure, Except.pure] at h
      · split at h
        · simp only [pure, Except.pure, Except.ok.injEq, Option.some.injEq,
            Prod.mk.injEq] at h
          rw [← h.1]
          rfl
        · split at h
          · simp only [pure, Except.pure, Except.ok.injEq, Option.some.injEq,
              Prod.mk.injEq] at h
            rw [← h.1]
            rfl
          · simp [throw, throwThe, MonadExceptOf.throw] at h
    · simp [pure, Except.pure] at h

theorem elimFold_class (rg p0 p1 : Graph) (cs : List ((Nat × Nat) × (Nat × Nat)))
    (st : FinderResult) (r : FinderResult)
    (h : elimFold rg p0 p1 cs st = Except.ok r)
    (hst : ∀ t ∈ st.1, t.rxnClass = some RxnClass.ELIMINATION) :
    ∀ t ∈ r.1, t.rxnClass = some RxnClass.ELIMINATION := by
  induction cs generalizing st with
  | nil =>
    simp only [elimFold, pure, Except.pure, Except.ok.injEq] at h
    subst h; exact hst
  | cons c cs ih =>
    simp only [elimFold] at h
    cases he : elimStep rg p0 p1 c with
    | error e => rw [he] at h; simp only [Bind.bind, Except.bind] at h; exact absurd h (by simp)
    | ok o =>
      rw [he] at h
      simp only [Bind.bind, Except.bind] at h
      cases o with
      | none => exact ih st h hst
      | some tok =>
        obtain ⟨tra, idxs⟩ := tok
        refine ih _ h ?_
        intro t ht
        simp only [List.mem_append, List.mem_singleton] at ht
        rcases ht with ht | rfl
        · exact hst t ht
        · exact elimStep_some_class rg p0 p1 c t idxs he

theorem elimination_class (rct prd : List Graph) (r : FinderResult)
    (h : elimination rct prd = Except.ok r) :
    ∀ t ∈ r.1, t.rxnClass = some RxnClass.ELIMINATION := by
  unfold elimination at h
  rcases assert_cases rct with h1 | h1 <;> rw [h1] at h <;>
    simp only [Bind.bind, Except.bind] at h
  case inr => exact absurd h (by simp)
  rcases assert_cases prd with h2 | h2 <;> rw [h2] at h <;>
    simp only [Bind.bind, Except.bind] at h
  case inr => exact absurd h (by simp)
  cases ht : is_trivial_reaction rct prd with
  | error e => rw [ht] at h; exact absurd h (by simp)
  | ok b =>
    rw [ht] at h
    simp only [Except.bind] at h
    rcases rct with _ | ⟨g1, _ | ⟨g1b, rct'⟩⟩ <;>
      rcases prd with _ | ⟨p1, _ | ⟨p1b, _ | ⟨p1c, prd'⟩⟩⟩ <;>
      simp only [pure, Except.pure, Except.ok.injEq] at h <;>
      try (subst h; intro t ht'; simp [noMatch] at ht')
    cases b with
    | true =>
      simp only [if_true, pure, Except.pure, Except.ok.injEq] at h
      subst h; intro t ht'; simp [noMatch] at ht'
    | false =>
      simp only [Bool.false_eq_true, if_false] at h
      exact elimFold_class _ _ _ _ _ _ h (by intro t ht'; simp [noMatch] at ht')

theorem insertion_class (rct prd : List Graph) (r : FinderResult)
    (h : insertion rct prd = Except.ok r) :
    ∀ t ∈ r.1, t.rxnClass = none := by
  unfold insertion at h
  cases ha : elimination prd rct with
  | error e => rw [ha] at h; simp only [Bind.bind, Except.bind] at h; exact absurd h (by simp)
  | ok ra =>
    rw [ha] at h
    simp only [Bind.bind, Except.bind, pure, Except.pure, Except.ok.injEq] at h
    subst h
    intro t ht
    simp only [dedupTras, List.mem_dedup] at ht
    by_cases hemp : ra.1.isEmpty
    · rw [if_pos hemp] at ht
      simp at ht
    · rw [if_neg hemp] at ht
      obtain ⟨t', ht', rfl⟩ := List.mem_map.mp ht
      rw [trans_reverse_class,
        elimination_class prd rct ra ha t' ht']
      rfl

theorem substitution_class (rct prd : List Graph) (r : FinderResult)
    (h : substitution rct prd = Except.ok r) :
    ∀ t ∈ r.1, t.rxnClass = some RxnClass.SUBSTITUTION := by
  unfold substitution at h
  rcases assert_cases rct with h1 | h1 <;> rw [h1] at h <;>
    simp only [Bind.bind, Except.bind] at h
  case inr => exact absurd h (by simp)
  rcases assert_cases prd with h2 | h2 <;> rw [h2] at h <;>
    simp only [Bind.bind, Except.bind] at h
  case inr => exact absurd h (by simp)
  cases ht : is_trivial_reaction rct prd with
  | error e => rw [ht] at h; exact absurd h (by simp)
  | ok b =>
    rw [ht] at h
    simp only [Except.bind] at h
    rcases rct with _ | ⟨g1, _ | ⟨g1b, _ | ⟨g1c, rct'⟩⟩⟩ <;>
      rcases prd with _ | ⟨p1, _ | ⟨p1b, _ | ⟨p1c, prd'⟩⟩⟩ <;>
      simp only [pure, Except.pure, Except.ok.injEq] at h <;>
      try (subst h; intro t ht'; simp [noMatch] at ht')
    cases b with
    | true =>
      simp only [if_true, pure, Except.pure, Except.ok.injEq] at h
      subst h; intro t ht'; simp [noMatch] at ht'
    | false =>
      simp only [Bool.false_eq_true, if_false, pure, Except.pure, Except.ok.injEq] at h
      subst h
      intro t ht'
      simp only [dedupTras, List.mem_dedup] at ht'
      obtain ⟨c, _, hc⟩ := condLoop_mem _ _ _ t ht'
      cases hfi : full_isomorphism
          (remove_bonds (union_from_sequence [p1, p1b]) [c.2])
          (remove_bonds (union_from_sequence [g1, g1b]) [c.1]) with
      | none => rw [hfi] at hc; simp at hc
      | some p =>
        rw [hfi] at hc
        by_cases hemp : p.isEmpty <;> simp [hemp] at hc
        rw [← hc]
        rfl

/-! ## Claim C10 -/

/-- C10: the dispatch table maps exactly the eight classes (ring-forming
scission absent), and `classify` and `classify_simple` never produce a
ring-forming-scission transformation, although `ring_forming_scission`
is implemented. -/
theorem C10_no_ring_forming_scission :
    (REACTION_FINDER_DCT.map Prod.fst =
      [RxnClass.TRIVIAL, RxnClass.HYDROGEN_MIGRATION, RxnClass.HYDROGEN_ABSTRACTION,
        RxnClass.ADDITION, RxnClass.BETA_SCISSION, RxnClass.ELIMINATION,
        RxnClass.INSERTION, RxnClass.SUBSTITUTION]) ∧
    (∀ rct prd : List Graph, ∀ r : FinderResult, classify rct prd = Except.ok r →
      ∀ t ∈ r.1, t.rxnClass ≠ some RxnClass.RING_FORM_SCISSION) ∧
    (∀ rct prd : List Graph,
      classify_simple rct prd ≠ Except.ok (some RxnClass.RING_FORM_SCISSION)) := by
  have hmain : ∀ rct prd : List Graph, ∀ r : FinderResult,
      classify rct prd = Except.ok r →
      ∀ t ∈ r.1, t.rxnClass ≠ some RxnClass.RING_FORM_SCISSION := by
    intro rct prd r h t ht
    unfold classify at h
    by_cases hv : is_valid_reaction rct prd
    · rw [if_pos hv] at h
      rcases runFinders_cases rct prd _ r h with rfl | ⟨f, hf, hfr⟩
      · simp [noMatch] at ht
      · simp only [REACTION_FINDER_DCT, List.map_cons, List.map_nil, List.mem_cons,
          List.not_mem_nil, or_false] at hf
        rcases hf with rfl | rfl | rfl | rfl | rfl | rfl | rfl | rfl
        · rw [trivial_reaction_class rct prd r hfr t ht]; simp
        · rw [hydrogen_migration_class rct prd r hfr t ht]; simp
        · rw [hydrogen_abstraction_class rct prd r hfr t ht]; simp
        · rw [addition_class rct prd r hfr t ht]; simp
        · rw [beta_scission_class rct prd r hfr t ht]; simp
        · rw [elimination_class rct prd r hfr t ht]; simp
        · rw [insertion_class rct prd r hfr t ht]; simp
        · rw [substitution_class rct prd r hfr t ht]; simp
    · rw [if_neg hv] at h
      exact absurd h (by simp [throw, throwThe, MonadExceptOf.throw])
  refine ⟨rfl, hmain, ?_⟩
  intro rct prd h
  unfold classify_simple at h
  simp only [] at h
  rw [show standard_keys_for_sequence ((rct.map explicit).map without_stereo_parities) =
        ((standard_keys_for_sequence ((rct.map explicit).map without_stereo_parities)).1, ())
      from rfl,
    show standard_keys_for_sequence ((prd.map explicit).map without_stereo_parities) =
        ((standard_keys_for_sequence ((prd.map explicit).map without_stereo_parities)).1, ())
      from rfl] at h
  simp only [] at h
  cases hc : classify ((standard_keys_for_sequence
      ((rct.map explicit).map without_stereo_parities)).1)
      ((standard_keys_for_sequence ((prd.map explicit).map without_stereo_parities)).1) with
  | error e => rw [hc] at h; simp [Bind.bind, Except.bind] at h
  | ok rr =>
    obtain ⟨tras, i1, i2⟩ := rr
    rw [hc] at h
    simp only [Bind.bind, Except.bind, pure, Except.pure, Except.ok.injEq] at h
    by_cases hemp : tras.isEmpty
    · rw [if_pos hemp] at h
      simp at h
    · rw [if_neg hemp] at h
      have hne : tras ≠ [] := by simpa [List.isEmpty_iff] using hemp
      have hmem : tras.headD ⟨none, [], []⟩ ∈ tras := by
        cases tras with
        | nil => exact absurd rfl hne
        | cons a l => simp
      exact hmain _ _ _ hc _ hmem h

/-- Witness for C10 at a concrete trivial classification. -/
theorem C10_no_ring_forming_scission_witness :
    (Tra.from_data (some RxnClass.TRIVIAL) [] []).rxnClass ≠
      some RxnClass.RING_FORM_SCISSION :=
  C10_no_ring_forming_scission.2.1 [gC0] [gC5]
    ([Tra.from_data (some RxnClass.TRIVIAL) [] []], some [0], some [0]) rfl
    (Tra.from_data (some RxnClass.TRIVIAL) [] []) (by simp)

/-! ## Claim C4 -/

/-- Follows the specification's words for beta scission: invoke the
addition classifier with reactant/product roles swapped; for every
transformation found, reverse it (swap formed/broken, remap atom keys
into the true product-to-reactant direction using the union of the true
reactant graphs as the new reference space) and deduplicate by value
equality; no independent search logic. -/
def beta_scission_spec (rct_gras prd_gras : List Graph) : Except ContractErr FinderResult := do
  let (rev_tras, prd_idxs, rct_idxs) ← addition prd_gras rct_gras
  pure (dedupTras (rev_tras.map (fun tra =>
      trans_reverse tra (union_from_sequence prd_gras) (union_from_sequence rct_gras))),
    rct_idxs, prd_idxs)

/-- C4: `beta_scission` is exactly the reverse of `addition` — it equals
the specification's role-swap-reverse-deduplicate description on all
inputs, and whenever addition succeeds on (reactants, products) its
transformations reappear reversed (formed and broken swapped, keys
remapped through the unions of the true reagents) and deduplicated as the
beta-scission result on (products, reactants), with the sort orders
carried over. -/
theorem C4_beta_scission_is_reverse_addition :
    (∀ rct prd : List Graph, beta_scission rct prd = beta_scission_spec rct prd) ∧
    (∀ R P : List Graph, ∀ tras : List Tra, ∀ ri pi : Option (List Nat),
      addition R P = Except.ok (tras, ri, pi) →
      beta_scission P R = Except.ok
        (dedupTras (tras.map (fun t =>
          trans_reverse t (union_from_sequence R) (union_from_sequence P))),
          pi, ri)) := by
  have hmain : ∀ rct prd : List Graph, beta_scission rct prd = beta_scission_spec rct prd := by
    intro rct prd
    unfold beta_scission beta_scission_spec
    cases ha : addition prd rct with
    | error e => rfl
    | ok ra =>
      obtain ⟨tras, ri, pi⟩ := ra
      simp only [Bind.bind, Except.bind, pure, Except.pure, Except.ok.injEq]
      by_cases hemp : tras.isEmpty
      · have : tras = [] := by simpa [List.isEmpty_iff] using hemp
        subst this
        simp
      · rw [if_neg hemp]
  refine ⟨hmain, ?_⟩
  intro R P tras ri pi h
  rw [hmain P R]
  unfold beta_scission_spec
  rw [h]
  rfl

/-- Witness for C4: hydrogen-atom recombination reversed into the beta
scission of molecular hydrogen. -/
theorem C4_beta_scission_is_reverse_addition_witness :
    beta_scission [gH2mol] [gH0, gH1] = Except.ok
      (dedupTras (([Tra.from_data (some RxnClass.ADDITION) [(0, 1)] []]).map (fun t =>
        trans_reverse t (union_from_sequence [gH0, gH1]) (union_from_sequence [gH2mol]))),
        some [0], some [0, 1]) :=
  C4_beta_scission_is_reverse_addition.2 [gH0, gH1] [gH2mol]
    [Tra.from_data (some RxnClass.ADDITION) [(0, 1)] []] (some [0, 1]) (some [0]) rfl

/-! ## Claim C3 -/

theorem runFinders_cons (rct prd : List Graph)
    (f : List Graph → List Graph → Except ContractErr FinderResult)
    (rest : List (List Graph → List Graph → Except ContractErr FinderResult))
    (hne : rest ≠ []) :
    runFinders rct prd (f :: rest) = (do
      let r ← f rct prd
      if r.1.isEmpty then runFinders rct prd rest else pure r) := by
  cases rest with
  | nil => exact absurd rfl hne
  | cons g gs => rfl

/-- C3: the dispatch table runs the classifiers in the fixed priority
order trivial, hydrogen migration, hydrogen abstraction, addition, beta
scission, elimination, insertion, substitution, and `classify` returns
the full result triple of the first classifier whose transformation tuple
is non-empty — classifiers after the first successful one (here the
arbitrary suffix `gs`) never influence the result. -/
theorem C3_dispatch_priority :
    (REACTION_FINDER_DCT.map Prod.fst =
      [RxnClass.TRIVIAL, RxnClass.HYDROGEN_MIGRATION, RxnClass.HYDROGEN_ABSTRACTION,
        RxnClass.ADDITION, RxnClass.BETA_SCISSION, RxnClass.ELIMINATION,
        RxnClass.INSERTION, RxnClass.SUBSTITUTION]) ∧
    (∀ rct prd : List Graph,
      ∀ fs gs : List (List Graph → List Graph → Except ContractErr FinderResult),
      ∀ f r,
        (∀ f' ∈ fs, ∃ r', f' rct prd = Except.ok r' ∧ r'.1 = []) →
        f rct prd = Except.ok r → r.1 ≠ [] →
        runFinders rct prd (fs ++ f :: gs) = Except.ok r) ∧
    (∀ rct prd, is_valid_reaction rct prd →
      classify rct prd = runFinders rct prd (REACTION_FINDER_DCT.map Prod.snd)) := by
  refine ⟨rfl, ?_, ?_⟩
  · intro rct prd fs
    induction fs with
    | nil =>
      intro gs f r _ hf hne
      cases gs with
      | nil => simpa [runFinders] using hf
      | cons g gs' =>
        simp only [List.nil_append, runFinders]
        rw [hf]
        simp only [Bind.bind, Except.bind]
        rw [if_neg (by simp [List.isEmpty_iff, hne])]
        rfl
    | cons f' fs' ih =>
      intro gs f r hks hf hne
      obtain ⟨r', hr', hre⟩ := hks f' (by simp)
      rw [List.cons_append,
        runFinders_cons rct prd f' (fs' ++ f :: gs) (by simp), hr']
      simp only [Bind.bind, Except.bind]
      rw [if_pos (by simp [List.isEmpty_iff, hre])]
      exact ih gs f r (fun g hg => hks g (List.mem_cons_of_mem _ hg)) hf hne
  · intro rct prd hv
    unfold classify
    rw [if_pos hv]

/-- Witness for C3: with an empty prefix, the trivial classifier's
non-empty success on a one-carbon trivial reaction is the dispatch
result, whatever follows it. -/
theorem C3_dispatch_priority_witness :
    runFinders [gC0] [gC5]
        ([] ++ trivial_reaction ::
          [hydrogen_migration, hydrogen_abstraction, addition, beta_scission,
            elimination, insertion, substitution]) =
      Except.ok ([Tra.from_data (some RxnClass.TRIVIAL) [] []], some [0], some [0]) :=
  C3_dispatch_priority.2.1 [gC0] [gC5] []
    [hydrogen_migration, hydrogen_abstraction, addition, beta_scission,
      elimination, insertion, substitution]
    trivial_reaction
    ([Tra.from_data (some RxnClass.TRIVIAL) [] []], some [0], some [0])
    (by simp) rfl (by simp)

/-! ## Metatheory of the isomorphism oracle -/

theorem find?_isSome_of {α : Type _} (l : List α) (q : α → Bool) (x : α)
    (hx : x ∈ l) (hq : q x) : (l.find? q).isSome := by
  induction l with
  | nil => cases hx
  | cons a l ih =>
    simp only [List.find?]
    cases h : q a with
    | true => simp
    | false =>
      rcases List.mem_cons.mp hx with rfl | hx'
      · rw [h] at hq; cases hq
      · exact ih hx'

theorem full_isomorphism_sound (g h : Graph) (p : List (Nat × Nat))
    (hp : full_isomorphism g h = some p) : IsoCheckP p g h := by
  unfold full_isomorphism at hp
  have h1 := List.find?_some hp
  simp only [decide_eq_true_eq] at h1
  exact h1

theorem papply_eq (p : List (Nat × Nat)) (hnd : (keysFst p).Nodup)
    (pr : Nat × Nat) (hpr : pr ∈ p) : papply p pr.1 = some pr.2 := by
  induction p with
  | nil => cases hpr
  | cons q p' ih =>
    rcases List.mem_cons.mp hpr with rfl | hpr'
    · simp [papply, List.find?]
    · have hne : q.1 ≠ pr.1 := by
        intro he
        have : pr.1 ∈ keysFst p' := List.mem_map.mpr ⟨pr, hpr', rfl⟩
        rw [← he] at this
        exact (List.nodup_cons.mp hnd).1 this
      have := ih (List.nodup_cons.mp hnd).2 hpr'
      simpa [papply, List.find?, hne] using this

theorem papplyD_eq (p : List (Nat × Nat)) (hnd : (keysFst p).Nodup)
    (pr : Nat × Nat) (hpr : pr ∈ p) : papplyD p pr.1 = pr.2 := by
  simp [papplyD, papply_eq p hnd pr hpr]

theorem keysFst_maps_to_keysSnd (p : List (Nat × Nat)) (hnd : (keysFst p).Nodup) :
    (keysFst p).map (papplyD p) = keysSnd p := by
  have hfp : ∀ pr ∈ p, papplyD p pr.1 = pr.2 := fun pr hpr => papplyD_eq p hnd pr hpr
  calc (keysFst p).map (papplyD p)
      = p.map (fun pr => papplyD p pr.1) := by rw [keysFst, List.map_map]; rfl
    _ = p.map (fun pr => pr.2) := List.map_congr_left hfp
    _ = keysSnd p := rfl

theorem full_isomorphism_complete (g h : Graph) (p : List (Nat × Nat))
    (hc : IsoCheckP p g h) : (full_isomorphism g h).isSome := by
  obtain ⟨hf, hs, hndf, hnds, hatm, hbnd⟩ := hc
  have hperm : (atom_keys g).map (papplyD p) |>.Perm (atom_keys h) := by
    have h1 : ((atom_keys g).map (papplyD p)).Perm ((keysFst p).map (papplyD p)) :=
      (hf.symm).map (papplyD p)
    rw [keysFst_maps_to_keysSnd p hndf] at h1
    exact h1.trans hs
  have hp' : (atom_keys g).zip ((atom_keys g).map (papplyD p)) =
      (atom_keys g).map (fun a => (a, papplyD p a)) := by
    have := List.zip_map' id (papplyD p) (atom_keys g)
    simpa using this
  have hmemfst : ∀ a ∈ atom_keys g, ∃ pr ∈ p, pr.1 = a ∧ papplyD p a = pr.2 := by
    intro a ha
    have : a ∈ keysFst p := hf.symm.subset ha
    obtain ⟨pr, hpr, hpra⟩ := List.mem_map.mp this
    exact ⟨pr, hpr, hpra, by rw [← hpra]; exact papplyD_eq p hndf pr hpr⟩
  have hfst : keysFst ((atom_keys g).map (fun a => (a, papplyD p a))) = atom_keys g := by
    rw [keysFst, List.map_map]
    rw [show (Prod.fst ∘ fun a : Nat => (a, papplyD p a)) = id from rfl, List.map_id]
  have hsnd : keysSnd ((atom_keys g).map (fun a => (a, papplyD p a))) =
      (atom_keys g).map (papplyD p) := by
    rw [keysSnd, List.map_map]
    rfl
  have hcheck : IsoCheckP ((atom_keys g).zip ((atom_keys g).map (papplyD p))) g h := by
    rw [hp']
    refine ⟨?_, ?_, ?_, ?_, ?_, ?_⟩
    · rw [hfst]
    · rw [hsnd]
      exact hperm
    · rw [hfst]
      exact hf.nodup hndf
    · rw [hsnd]
      exact hperm.symm.nodup (hs.nodup hnds)
    · intro pr hpr
      obtain ⟨a, ha, rfl⟩ := List.mem_map.mp hpr
      obtain ⟨pr0, hpr0, hpr0a, hpr0b⟩ := hmemfst a ha
      simp only [hpr0b]
      rw [← hpr0a]
      exact hatm pr0 hpr0
    · intro pr hpr qr hqr
      obtain ⟨a, ha, rfl⟩ := List.mem_map.mp hpr
      obtain ⟨c, hcm, rfl⟩ := List.mem_map.mp hqr
      obtain ⟨pr0, hpr0, hpr0a, hpr0b⟩ := hmemfst a ha
      obtain ⟨qr0, hqr0, hqr0a, hqr0b⟩ := hmemfst c hcm
      simp only [hpr0b, hqr0b]
      rw [← hpr0a, ← hqr0a]
      exact hbnd pr0 hpr0 qr0 hqr0
  refine find?_isSome_of _ _ ((atom_keys g).zip ((atom_keys g).map (papplyD p))) ?_
    (decide_eq_true hcheck)
  exact List.mem_map.mpr
    ⟨(atom_keys g).map (papplyD p), List.mem_permutations'.mpr hperm, rfl⟩

theorem IsoCheckP_swap (p : List (Nat × Nat)) (g h : Graph)
    (hc : IsoCheckP p g h) : IsoCheckP (p.map Prod.swap) h g := by
  obtain ⟨hf, hs, hndf, hnds, hatm, hbnd⟩ := hc
  have hfsw : keysFst (p.map Prod.swap) = keysSnd p := by
    rw [keysFst, keysSnd, List.map_map]; rfl
  have hssw : keysSnd (p.map Prod.swap) = keysFst p := by
    rw [keysFst, keysSnd, List.map_map]; rfl
  refine ⟨by rw [hfsw]; exact hs, by rw [hssw]; exact hf,
    by rw [hfsw]; exact hnds, by rw [hssw]; exact hndf, ?_, ?_⟩
  · intro pr hpr
    obtain ⟨pr0, hpr0, rfl⟩ := List.mem_map.mp hpr
    exact (hatm pr0 hpr0).symm
  · intro pr hpr qr hqr
    obtain ⟨pr0, hpr0, rfl⟩ := List.mem_map.mp hpr
    obtain ⟨qr0, hqr0, rfl⟩ := List.mem_map.mp hqr
    exact (hbnd pr0 hpr0 qr0 hqr0).symm

theorem IsoCheckP_empty_iff (p : List (Nat × Nat)) (g h : Graph)
    (hc : IsoCheckP p g h) : p = [] ↔ atom_keys g = [] := by
  obtain ⟨hf, _, _, _, _, _⟩ := hc
  constructor
  · intro hp
    subst hp
    simpa [keysFst] using hf.symm.eq_nil
  · intro hg
    rw [hg] at hf
    have h0 : keysFst p = [] := hf.eq_nil
    simpa [keysFst] using h0

theorem isoTruthy_iff (g h : Graph) :
    isoTruthy g h = true ↔ ∃ p, full_isomorphism g h = some p ∧ p ≠ [] := by
  unfold isoTruthy
  cases hfi : full_isomorphism g h with
  | none => simp
  | some p => simp [List.isEmpty_iff]

theorem isoTruthy_symm (g h : Graph) (ht : isoTruthy g h = true) :
    isoTruthy h g = true := by
  obtain ⟨p, hfi, hne⟩ := (isoTruthy_iff g h).mp ht
  have hc := full_isomorphism_sound g h p hfi
  have hc' := IsoCheckP_swap p g h hc
  have hsome := full_isomorphism_complete h g (p.map Prod.swap) hc'
  obtain ⟨q, hq⟩ := Option.isSome_iff_exists.mp hsome
  refine (isoTruthy_iff h g).mpr ⟨q, hq, ?_⟩
  intro hq0
  have hcq := full_isomorphism_sound h g q hq
  have hh : atom_keys h = [] := (IsoCheckP_empty_iff q h g hcq).mp hq0
  have hpe : p = [] := by
    obtain ⟨_, hs, _, _, _, _⟩ := hc
    rw [hh] at hs
    have h0 : keysSnd p = [] := hs.eq_nil
    simpa [keysSnd] using h0
  exact hne hpe

/-! ## Claim C9 -/

theorem iso_tuple_truthy_symm (a b : List Graph)
    (h : iso_tuple_truthy a b = true) : iso_tuple_truthy b a = true := by
  have ha : iso_tuple_truthy a b =
      isoTruthy (union_from_sequence a) (union_from_sequence b) := rfl
  have hb : iso_tuple_truthy b a =
      isoTruthy (union_from_sequence b) (union_from_sequence a) := rfl
  rw [hb]
  rw [ha] at h
  exact isoTruthy_symm _ _ h

theorem uniqueGrasLoop_pairwise (rest uni : List (List Graph))
    (h : List.Pairwise (fun a b => iso_tuple_truthy b a = false) uni) :
    List.Pairwise (fun a b => iso_tuple_truthy b a = false) (uniqueGrasLoop rest uni) := by
  induction rest generalizing uni with
  | nil => exact h
  | cons gra rest ih =>
    simp only [uniqueGrasLoop]
    by_cases hany : uni.any (fun u => iso_tuple_truthy gra u)
    · rw [if_pos hany]
      exact ih uni h
    · rw [if_neg hany]
      refine ih _ (List.pairwise_append.mpr ⟨h, by simp, ?_⟩)
      intro a ha b hb
      simp only [List.mem_singleton] at hb
      subst hb
      have := List.any_eq_false.mp (by simpa using hany) a ha
      simpa using this

theorem unique_gras_pairwise (lst : List (List Graph)) :
    List.Pairwise (fun a b => iso_tuple_truthy b a = false ∧ iso_tuple_truthy a b = false)
      (unique_gras lst) := by
  have hdir : List.Pairwise (fun a b => iso_tuple_truthy b a = false) (unique_gras lst) := by
    cases lst with
    | nil => simp [unique_gras]
    | cons g0 rest => exact uniqueGrasLoop_pairwise rest [g0] (by simp)
  refine hdir.imp ?_
  intro a b hab
  refine ⟨hab, ?_⟩
  cases hba : iso_tuple_truthy a b with
  | false => rfl
  | true => rw [iso_tuple_truthy_symm a b hba] at hab; cases hab

/-- C9: `_unique_gras` keeps no two entries that are fully isomorphic to
each other (multi-fragment entries compared through the union of their
components), so every product enumerator built on it returns pairwise
non-isomorphic results. -/
theorem C9_unique_gras_no_isomorphic_pair :
    (∀ lst : List (List Graph),
      List.Pairwise (fun a b => iso_tuple_truthy b a = false ∧ iso_tuple_truthy a b = false)
        (unique_gras lst)) ∧
    (∀ x_gra y_gra : Graph,
      List.Pairwise (fun a b => iso_tuple_truthy b a = false ∧ iso_tuple_truthy a b = false)
        (prod_addition x_gra y_gra)) ∧
    (∀ gra : Graph,
      List.Pairwise (fun a b => iso_tuple_truthy b a = false ∧ iso_tuple_truthy a b = false)
        (prod_hydrogen_migration gra)) ∧
    (∀ gra : Graph,
      List.Pairwise (fun a b => iso_tuple_truthy b a = false ∧ iso_tuple_truthy a b = false)
        (prod_beta_scission gra)) ∧
    (∀ gra : Graph,
      List.Pairwise (fun a b => iso_tuple_truthy b a = false ∧ iso_tuple_truthy a b = false)
        (prod_homolytic_scission gra)) ∧
    (∀ (gra : Graph) (grp : String),
      List.Pairwise (fun a b => iso_tuple_truthy b a = false ∧ iso_tuple_truthy a b = false)
        (prod_group_loss gra grp)) := by
  refine ⟨unique_gras_pairwise, ?_, ?_, ?_, ?_, ?_⟩
  · intro x_gra y_gra
    unfold prod_addition
    exact unique_gras_pairwise _
  · intro gra
    unfold prod_hydrogen_migration
    split
    · exact unique_gras_pairwise _
    · simp
  · intro gra
    unfold prod_beta_scission
    exact unique_gras_pairwise _
  · intro gra
    unfold prod_homolytic_scission
    exact unique_gras_pairwise _
  · intro gra grp
    unfold prod_group_loss
    exact unique_gras_pairwise _

/-! ## Claim C6 -/

theorem listProd_mem {α β : Type _} (l1 : List α) (l2 : List β) (a : α) (b : β)
    (ha : a ∈ l1) (hb : b ∈ l2) : (a, b) ∈ listProd l1 l2 := by
  unfold listProd
  exact List.mem_flatMap.mpr ⟨a, ha, List.mem_map.mpr ⟨b, hb, rfl⟩⟩

/-- The per-site-pair test of the hydrogen-migration loop (named for the
statements below; definitionally the loop body of `hydrogen_migration`). -/
def hmigTest (gra1 gra2 : Graph) (ak : Nat × Nat) : Option Tra :=
  match full_isomorphism
      (add_atom_explicit_hydrogen_keys gra2 ak.2 [maxKey gra2 + 1])
      (add_atom_explicit_hydrogen_keys gra1 ak.1 [maxKey gra1 + 1]) with
  | some q =>
    if q.isEmpty then none else
      some (Tra.from_data (some RxnClass.HYDROGEN_MIGRATION)
        [(ak.1, papplyD q (maxKey gra2 + 1))]
        [(papplyD q ak.2, papplyD q (maxKey gra2 + 1))])
  | none => none

theorem hydrogen_migration_eq_condLoop (gra1 gra2 : Graph)
    (hr : ValidReagents [gra1]) (hp : ValidReagents [gra2])
    (htriv : is_trivial_reaction [gra1] [gra2] = Except.ok false) :
    hydrogen_migration [gra1] [gra2] = Except.ok
      (condLoop (hmigTest gra1 gra2) ([0], [0])
        (listProd (unsaturated_atom_keys gra1) (unsaturated_atom_keys gra2)) noMatch) := by
  unfold hydrogen_migration
  rw [(assert_ok_iff [gra1]).mpr hr]
  simp only [Bind.bind, Except.bind]
  rw [(assert_ok_iff [gra2]).mpr hp]
  simp only [Except.bind]
  rw [htriv]
  simp only [Except.bind]
  rfl

/-- C6: on a one-reactant, one-product, non-trivial pair,
`hydrogen_migration` records, for every pair of unsaturated sites whose
hydrogen-augmented graphs (synthetic hydrogens at fresh keys one above
each graph's maximum key) are fully isomorphic under a mapping `p`, the
transformation with formed bond (reactant site, image of the synthetic
hydrogen) and broken bond (image of the product site, image of the
synthetic hydrogen), collecting all matching site pairs, with (0,)/(0,)
reagent orders. -/
theorem C6_hydrogen_migration_records_all_site_pairs (gra1 gra2 : Graph)
    (hr : ValidReagents [gra1]) (hp : ValidReagents [gra2])
    (htriv : is_trivial_reaction [gra1] [gra2] = Except.ok false)
    (k1 k2 : Nat)
    (hk1 : k1 ∈ unsaturated_atom_keys gra1) (hk2 : k2 ∈ unsaturated_atom_keys gra2)
    (p : List (Nat × Nat))
    (hfi : full_isomorphism
      (add_atom_explicit_hydrogen_keys gra2 k2 [maxKey gra2 + 1])
      (add_atom_explicit_hydrogen_keys gra1 k1 [maxKey gra1 + 1]) = some p)
    (hpne : p ≠ []) :
    ∃ tras : List Tra,
      hydrogen_migration [gra1] [gra2] = Except.ok (tras, some [0], some [0]) ∧
        Tra.from_data (some RxnClass.HYDROGEN_MIGRATION)
          [(k1, papplyD p (maxKey gra2 + 1))]
          [(papplyD p k2, papplyD p (maxKey gra2 + 1))] ∈ tras := by
  have hres := hydrogen_migration_eq_condLoop gra1 gra2 hr hp htriv
  have htest : hmigTest gra1 gra2 (k1, k2) =
      some (Tra.from_data (some RxnClass.HYDROGEN_MIGRATION)
        [(k1, papplyD p (maxKey gra2 + 1))]
        [(papplyD p k2, papplyD p (maxKey gra2 + 1))]) := by
    unfold hmigTest
    simp only [hfi]
    rw [if_neg (by simpa [List.isEmpty_iff] using hpne)]
  have hmem : Tra.from_data (some RxnClass.HYDROGEN_MIGRATION)
      [(k1, papplyD p (maxKey gra2 + 1))]
      [(papplyD p k2, papplyD p (maxKey gra2 + 1))] ∈
      (listProd (unsaturated_atom_keys gra1) (unsaturated_atom_keys gra2)).filterMap
        (hmigTest gra1 gra2) :=
    List.mem_filterMap.mpr ⟨(k1, k2), listProd_mem _ _ k1 k2 hk1 hk2, htest⟩
  refine ⟨(condLoop (hmigTest gra1 gra2) ([0], [0])
      (listProd (unsaturated_atom_keys gra1) (unsaturated_atom_keys gra2)) noMatch).1, ?_, ?_⟩
  · rw [hres]
    congr 1
    have hidx := condLoop_idxs (hmigTest gra1 gra2) ([0], [0])
      (listProd (unsaturated_atom_keys gra1) (unsaturated_atom_keys gra2)) noMatch
    have hne : (listProd (unsaturated_atom_keys gra1)
        (unsaturated_atom_keys gra2)).filterMap (hmigTest gra1 gra2) ≠ [] := by
      intro h0
      rw [h0] at hmem
      cases hmem
    rw [if_neg hne] at hidx
    exact Prod.ext rfl hidx
  · rw [condLoop_tras]
    simpa [noMatch] using hmem

/-- The hydroxymethyl radical CH2OH with explicit hydrogens. -/
def gCH2OH : Graph :=
  ⟨[(0, aC), (1, aH), (2, aH), (3, aO), (4, aH)],
    [((0, 1), (1, none)), ((0, 2), (1, none)), ((0, 3), (1, none)), ((3, 4), (1, none))]⟩

/-- The methoxy radical CH3O with explicit hydrogens. -/
def gCH3O : Graph :=
  ⟨[(10, aC), (11, aH), (12, aH), (13, aH), (14, aO)],
    [((10, 11), (1, none)), ((10, 12), (1, none)), ((10, 13), (1, none)),
      ((10, 14), (1, none))]⟩

set_option maxRecDepth 100000 in
/-- Witness for C6: the CH2OH to CH3O hydrogen migration, with the
oracle's returned mapping. -/
theorem C6_hydrogen_migration_records_all_site_pairs_witness :
    ∃ tras : List Tra,
      hydrogen_migration [gCH2OH] [gCH3O] = Except.ok (tras, some [0], some [0]) ∧
        Tra.from_data (some RxnClass.HYDROGEN_MIGRATION)
          [(0, papplyD ((full_isomorphism
              (add_atom_explicit_hydrogen_keys gCH3O 14 [maxKey gCH3O + 1])
              (add_atom_explicit_hydrogen_keys gCH2OH 0 [maxKey gCH2OH + 1])).getD [])
              (maxKey gCH3O + 1))]
          [(papplyD ((full_isomorphism
              (add_atom_explicit_hydrogen_keys gCH3O 14 [maxKey gCH3O + 1])
              (add_atom_explicit_hydrogen_keys gCH2OH 0 [maxKey gCH2OH + 1])).getD []) 14,
            papplyD ((full_isomorphism
              (add_atom_explicit_hydrogen_keys gCH3O 14 [maxKey gCH3O + 1])
              (add_atom_explicit_hydrogen_keys gCH2OH 0 [maxKey gCH2OH + 1])).getD [])
              (maxKey gCH3O + 1))] ∈ tras :=
  C6_hydrogen_migration_records_all_site_pairs gCH2OH gCH3O
    (by decide) (by decide) rfl 0 14 (by decide) (by decide)
    ((full_isomorphism
      (add_atom_explicit_hydrogen_keys gCH3O 14 [maxKey gCH3O + 1])
      (add_atom_explicit_hydrogen_keys gCH2OH 0 [maxKey gCH2OH + 1])).getD [])
    rfl (by decide)

/-! ## Claim C5 -/

theorem foldl_keep {α : Type _} (step : List Tra → α → List Tra)
    (hk : ∀ tras x, tras ≠ [] → step tras x = tras) :
    ∀ (l : List α) (tras : List Tra), tras ≠ [] → l.foldl step tras = tras := by
  intro l
  induction l with
  | nil => intro tras _; rfl
  | cons x l ih =>
    intro tras htras
    simp only [List.foldl]
    rw [hk tras x htras]
    exact ih tras htras

theorem foldl_le_one {α : Type _} (step : List Tra → α → List Tra)
    (h0 : ∀ x, (step [] x).length ≤ 1)
    (hk : ∀ tras x, tras ≠ [] → step tras x = tras) :
    ∀ (l : List α) (tras : List Tra), tras.length ≤ 1 →
      (l.foldl step tras).length ≤ 1 := by
  intro l
  induction l with
  | nil => intro tras htras; exact htras
  | cons x l ih =>
    intro tras htras
    simp only [List.foldl]
    cases tras with
    | nil => exact ih _ (h0 x)
    | cons a t =>
      rw [hk (a :: t) x (by simp)]
      exact ih _ htras

/-- C5 (amended): the guard of the ring-forming-scission search tests the
transformation list accumulated across the whole search, so at most one
transformation is ever returned — only the first radical site with a
successful candidate contributes. -/
theorem C5_ring_forming_scission_at_most_one (rct prd : List Graph) (r : FinderResult)
    (h : ring_forming_scission rct prd = Except.ok r) : r.1.length ≤ 1 := by
  unfold ring_forming_scission at h
  rcases assert_cases rct with h1 | h1 <;> rw [h1] at h <;>
    simp only [Bind.bind, Except.bind] at h
  case inr => exact absurd h (by simp)
  rcases assert_cases prd with h2 | h2 <;> rw [h2] at h <;>
    simp only [Bind.bind, Except.bind] at h
  case inr => exact absurd h (by simp)
  cases ht : is_trivial_reaction rct prd with
  | error e => rw [ht] at h; exact absurd h (by simp)
  | ok b =>
    rw [ht] at h
    simp only [Except.bind] at h
    rcases rct with _ | ⟨rgra, _ | ⟨g1b, rct'⟩⟩ <;>
      rcases prd with _ | ⟨pgra1, _ | ⟨pgra2, _ | ⟨p1c, prd'⟩⟩⟩ <;>
      simp only [pure, Except.pure, Except.ok.injEq] at h <;>
      try (subst h; simp [noMatch])
    cases b with
    | true =>
      simp only [if_true, pure, Except.pure, Except.ok.injEq] at h
      subst h; simp [noMatch]
    | false =>
      simp only [Bool.false_eq_true, if_false, pure, Except.pure, Except.ok.injEq] at h
      subst h
      simp only []
      refine foldl_le_one _ ?_ ?_ _ [] (by simp)
      · intro rad_atm
        refine foldl_le_one _ ?_ ?_ _ [] (by simp)
        · intro xatm
          split
          · split <;> simp
          · simp
        · intro tras xatm htras
          rw [if_neg (fun hc => htras hc.2.2.2)]
      · intro tras rad_atm htras
        exact foldl_keep _ (fun tras' xatm htras' =>
          if_neg (fun hc => htras' hc.2.2.2)) _ tras htras

/-- The bare-carbon chain 0-1-2-3-4; its two chain ends (and, with the
valence model, every atom) are unsaturated sites. -/
def chain5 : Graph :=
  ⟨[(0, aC), (1, aC), (2, aC), (3, aC), (4, aC)],
    [((0, 1), (1, none)), ((1, 2), (1, none)), ((2, 3), (1, none)), ((3, 4), (1, none))]⟩

/-- A three-carbon ring on keys 10, 11, 12. -/
def tri3 : Graph :=
  ⟨[(10, aC), (11, aC), (12, aC)],
    [((10, 11), (1, none)), ((11, 12), (1, none)), ((10, 12), (1, none))]⟩

/-- A two-carbon fragment on keys 13, 14. -/
def duo2 : Graph := ⟨[(13, aC), (14, aC)], [((13, 14), (1, none))]⟩

set_option maxRecDepth 100000 in
/-- Counterexample to C5 as stated: radical site 4 of the chain has a
successful candidate (adding the 4-2 bond and breaking 2-1 gives a graph
fully isomorphic to the product union), yet the returned transformation
tuple holds only the transformation of radical site 0 — later radical
sites with matches contribute no transformation of their own. -/
theorem C5_counterexample :
    ring_forming_scission [chain5] [tri3, duo2] = Except.ok
        ([Tra.from_data (some RxnClass.RING_FORM_SCISSION) [(0, 2)] [(2, 3)]],
          some [0], some [0, 1]) ∧
      (0 ∈ unsaturated_atom_keys chain5 ∧ 4 ∈ unsaturated_atom_keys chain5) ∧
      isoTruthy (remove_bonds (add_bonds chain5 [(4, 2)]) [(2, 1)]) (union tri3 duo2) = true ∧
      Tra.from_data (some RxnClass.RING_FORM_SCISSION) [(4, 2)] [(2, 1)] ∉
        ([Tra.from_data (some RxnClass.RING_FORM_SCISSION) [(0, 2)] [(2, 3)]] : List Tra) :=
  ⟨rfl, by decide, by decide, by decide⟩

/-- Witness for the amended C5 at the same concrete input. -/
theorem C5_ring_forming_scission_at_most_one_witness :
    ([Tra.from_data (some RxnClass.RING_FORM_SCISSION) [(0, 2)] [(2, 3)]] : List Tra).length ≤ 1 :=
  C5_ring_forming_scission_at_most_one [chain5] [tri3, duo2]
    ([Tra.from_data (some RxnClass.RING_FORM_SCISSION) [(0, 2)] [(2, 3)]],
      some [0], some [0, 1]) rfl

/-! ## Key renumbering preserves structure -/

theorem mkBnd_eq_iff (x y u v : Nat) :
    mkBnd x y = mkBnd u v ↔ (x = u ∧ y = v) ∨ (x = v ∧ y = u) := by
  unfold mkBnd
  split <;> split <;> simp [Prod.ext_iff] <;> omega

theorem mkBnd_self_of_lt (x y : Nat) (h : x < y) : mkBnd x y = (x, y) := by
  unfold mkBnd
  rw [if_pos (Nat.le_of_lt h)]

theorem find?_map_congr {α β : Type _} (l : List α) (u : α → β)
    (q : β → Bool) (q' : α → Bool) (hq : ∀ e ∈ l, q (u e) = q' e) :
    (l.map u).find? q = (l.find? q').map u := by
  induction l with
  | nil => rfl
  | cons a l ih =>
    simp only [List.map_cons, List.find?]
    rw [hq a (by simp)]
    cases h : q' a with
    | true => rfl
    | false => exact ih (fun e he => hq e (by simp [he]))

theorem atomVal_transform (g : Graph) (f : Nat → Nat)
    (hinj : ∀ a ∈ atom_keys g, ∀ b ∈ atom_keys g, f a = f b → a = b)
    (k : Nat) (hk : k ∈ atom_keys g) :
    atomVal (transform_keys g f) (f k) = atomVal g k := by
  unfold atomVal transform_keys
  simp only []
  rw [find?_map_congr g.atms (fun e => (f e.1, e.2))
    (fun e => decide (e.1 = f k)) (fun e => decide (e.1 = k)) ?_]
  · cases g.atms.find? (fun e => decide (e.1 = k)) <;> rfl
  · intro e he
    refine decide_eq_decide.mpr ⟨fun hf => ?_, fun hh => by show f e.1 = f k; rw [hh]⟩
    exact hinj e.1 (List.mem_map.mpr ⟨e, he, rfl⟩) k hk hf

theorem bondVal_transform (g : Graph) (f : Nat → Nat)
    (hinj : ∀ a ∈ atom_keys g, ∀ b ∈ atom_keys g, f a = f b → a = b)
    (hwf : Wf g) (a c : Nat) (ha : a ∈ atom_keys g) (hc : c ∈ atom_keys g) :
    bondVal (transform_keys g f) (mkBnd (f a) (f c)) = bondVal g (mkBnd a c) := by
  unfold bondVal transform_keys
  simp only []
  rw [find?_map_congr g.bnds (fun e => (mkBnd (f e.1.1) (f e.1.2), e.2))
    (fun e => decide (e.1 = mkBnd (f a) (f c))) (fun e => decide (e.1 = mkBnd a c)) ?_]
  · cases g.bnds.find? (fun e => decide (e.1 = mkBnd a c)) <;> rfl
  · intro e he
    obtain ⟨hlt, he1, he2⟩ := hwf.2.2 e he
    have hsel : mkBnd e.1.1 e.1.2 = e.1 := by
      rw [mkBnd_self_of_lt _ _ hlt]
    refine decide_eq_decide.mpr ⟨fun hf => ?_, fun hh => ?_⟩
    · rcases (mkBnd_eq_iff _ _ _ _).mp hf with ⟨hx, hy⟩ | ⟨hx, hy⟩
      · rw [← hsel]
        exact (mkBnd_eq_iff _ _ _ _).mpr
          (Or.inl ⟨hinj _ he1 _ ha hx, hinj _ he2 _ hc hy⟩)
      · rw [← hsel]
        exact (mkBnd_eq_iff _ _ _ _).mpr
          (Or.inr ⟨hinj _ he1 _ hc hx, hinj _ he2 _ ha hy⟩)
    · rw [← hsel] at hh
      rcases (mkBnd_eq_iff _ _ _ _).mp hh with ⟨hx, hy⟩ | ⟨hx, hy⟩
      · exact (mkBnd_eq_iff _ _ _ _).mpr (Or.inl ⟨by rw [hx], by rw [hy]⟩)
      · exact (mkBnd_eq_iff _ _ _ _).mpr (Or.inr ⟨by rw [hx], by rw [hy]⟩)

theorem atom_keys_transform (g : Graph) (f : Nat → Nat) :
    atom_keys (transform_keys g f) = (atom_keys g).map f := by
  unfold atom_keys transform_keys
  simp [List.map_map]

theorem transform_keys_isoCheck (g : Graph) (f : Nat → Nat)
    (hinj : ∀ a ∈ atom_keys g, ∀ b ∈ atom_keys g, f a = f b → a = b)
    (hwf : Wf g) :
    IsoCheckP ((atom_keys g).map (fun k => (k, f k))) g (transform_keys g f) := by
  have hfst : keysFst ((atom_keys g).map (fun k => (k, f k))) = atom_keys g := by
    rw [keysFst, List.map_map]
    rw [show (Prod.fst ∘ fun k : Nat => (k, f k)) = id from rfl, List.map_id]
  have hsnd : keysSnd ((atom_keys g).map (fun k => (k, f k))) = (atom_keys g).map f := by
    rw [keysSnd, List.map_map]
    rfl
  refine ⟨?_, ?_, ?_, ?_, ?_, ?_⟩
  · rw [hfst]
  · rw [hsnd, atom_keys_transform]
  · rw [hfst]; exact hwf.1
  · rw [hsnd]
    exact List.Nodup.map_on hinj hwf.1
  · intro pr hpr
    obtain ⟨k, hk, rfl⟩ := List.mem_map.mp hpr
    exact (atomVal_transform g f hinj k hk).symm
  · intro pr hpr qr hqr
    obtain ⟨k, hk, rfl⟩ := List.mem_map.mp hpr
    obtain ⟨m, hm, rfl⟩ := List.mem_map.mp hqr
    exact (bondVal_transform g f hinj hwf k m hk hm).symm

theorem transform_keys_isoP (g : Graph) (f : Nat → Nat)
    (hinj : ∀ a ∈ atom_keys g, ∀ b ∈ atom_keys g, f a = f b → a = b)
    (hwf : Wf g) (hne : atom_keys g ≠ []) :
    isoTruthy g (transform_keys g f) = true := by
  have hc := transform_keys_isoCheck g f hinj hwf
  have hsome := full_isomorphism_complete g (transform_keys g f) _ hc
  obtain ⟨q, hq⟩ := Option.isSome_iff_exists.mp hsome
  refine (isoTruthy_iff _ _).mpr ⟨q, hq, ?_⟩
  intro h0
  exact hne ((IsoCheckP_empty_iff q _ _ (full_isomorphism_sound _ _ q hq)).mp h0)

theorem papplyD_mem_fst (q : List (Nat × Nat)) (hnd : (keysFst q).Nodup)
    (b : Nat) (hb : b ∈ keysFst q) :
    ∃ qr ∈ q, qr.1 = b ∧ papplyD q b = qr.2 := by
  obtain ⟨qr, hqr, hqb⟩ := List.mem_map.mp hb
  exact ⟨qr, hqr, hqb, by rw [← hqb]; exact papplyD_eq q hnd qr hqr⟩

theorem isoTruthy_trans (g h k : Graph)
    (h1 : isoTruthy g h = true) (h2 : isoTruthy h k = true) :
    isoTruthy g k = true := by
  obtain ⟨p, hp, hpne⟩ := (isoTruthy_iff g h).mp h1
  obtain ⟨q, hq, _⟩ := (isoTruthy_iff h k).mp h2
  have hcp := full_isomorphism_sound g h p hp
  have hcq := full_isomorphism_sound h k q hq
  obtain ⟨hpf, hps, hpnf, hpns, hpa, hpb⟩ := hcp
  obtain ⟨hqf, hqs, hqnf, hqns, hqa, hqb⟩ := hcq
  have hmem : ∀ b ∈ keysSnd p, ∃ qr ∈ q, qr.1 = b ∧ papplyD q b = qr.2 := by
    intro b hb
    exact papplyD_mem_fst q hqnf b (hqf.symm.subset (hps.subset hb))
  have hcomp : IsoCheckP (p.map (fun pr => (pr.1, papplyD q pr.2))) g k := by
    have hfst : keysFst (p.map (fun pr => (pr.1, papplyD q pr.2))) = keysFst p := by
      rw [keysFst, keysFst, List.map_map]
      rfl
    have hsnd : keysSnd (p.map (fun pr => (pr.1, papplyD q pr.2))) =
        (keysSnd p).map (papplyD q) := by
      rw [keysSnd, keysSnd, List.map_map, List.map_map]
      rfl
    have hsndperm : ((keysSnd p).map (papplyD q)).Perm (keysSnd q) := by
      have h1' : ((keysSnd p).map (papplyD q)).Perm ((keysFst q).map (papplyD q)) :=
        (hps.trans hqf.symm).map (papplyD q)
      rw [keysFst_maps_to_keysSnd q hqnf] at h1'
      exact h1'
    refine ⟨?_, ?_, ?_, ?_, ?_, ?_⟩
    · rw [hfst]; exact hpf
    · rw [hsnd]; exact hsndperm.trans hqs
    · rw [hfst]; exact hpnf
    · rw [hsnd]; exact hsndperm.symm.nodup hqns
    · intro pr hpr
      obtain ⟨pr0, hpr0, rfl⟩ := List.mem_map.mp hpr
      obtain ⟨qr, hqr, hqr1, hqr2⟩ := hmem pr0.2 (List.mem_map.mpr ⟨pr0, hpr0, rfl⟩)
      simp only [hqr2]
      have h3 := hqa qr hqr
      rw [hqr1] at h3
      exact (hpa pr0 hpr0).trans h3
    · intro pr hpr qr' hqr'
      obtain ⟨pr0, hpr0, rfl⟩ := List.mem_map.mp hpr
      obtain ⟨qr0, hqr0, rfl⟩ := List.mem_map.mp hqr'
      obtain ⟨w1, hw1, hw1a, hw1b⟩ := hmem pr0.2 (List.mem_map.mpr ⟨pr0, hpr0, rfl⟩)
      obtain ⟨w2, hw2, hw2a, hw2b⟩ := hmem qr0.2 (List.mem_map.mpr ⟨qr0, hqr0, rfl⟩)
      simp only [hw1b, hw2b]
      have h3 := hqb w1 hw1 w2 hw2
      rw [hw1a, hw2a] at h3
      exact (hpb pr0 hpr0 qr0 hqr0).trans h3
  have hsome := full_isomorphism_complete g k _ hcomp
  obtain ⟨w, hw⟩ := Option.isSome_iff_exists.mp hsome
  refine (isoTruthy_iff g k).mpr ⟨w, hw, ?_⟩
  intro h0
  have hg : atom_keys g = [] :=
    (IsoCheckP_empty_iff w g k (full_isomorphism_sound g k w hw)).mp h0
  have : p = [] := by
    rw [hg] at hpf
    have h0' : keysFst p = [] := hpf.eq_nil
    simpa [keysFst] using h0'
  exact hpne this

/-! ## Properties of the standard-key renumbering -/

theorem ordInsert_perm (le : α → α → Bool) (x : α) (l : List α) :
    (ordInsert le x l).Perm (x :: l) := by
  induction l with
  | nil => exact List.Perm.refl _
  | cons y l ih =>
    simp only [ordInsert]
    split
    · exact List.Perm.refl _
    · exact (List.Perm.cons y ih).trans (List.Perm.swap x y l)

theorem isort_perm (le : α → α → Bool) (l : List α) : (isort le l).Perm l := by
  induction l with
  | nil => exact List.Perm.refl _
  | cons x l ih =>
    exact (ordInsert_perm le x (isort le l)).trans (List.Perm.cons x ih)

theorem idxOfNat_lt (k : Nat) (l : List Nat) (hk : k ∈ l) : idxOfNat k l < l.length := by
  induction l with
  | nil => cases hk
  | cons x l ih =>
    simp only [idxOfNat]
    split
    · simp
    · rcases List.mem_cons.mp hk with rfl | hk'
      · simp_all
      · simpa [Nat.succ_lt_succ_iff] using ih hk'

theorem idxOfNat_inj (k1 k2 : Nat) (l : List Nat) (h1 : k1 ∈ l) (h2 : k2 ∈ l)
    (he : idxOfNat k1 l = idxOfNat k2 l) : k1 = k2 := by
  induction l with
  | nil => cases h1
  | cons x l ih =>
    simp only [idxOfNat] at he
    by_cases hx1 : x = k1 <;> by_cases hx2 : x = k2
    · rw [← hx1, hx2]
    · rw [if_pos hx1, if_neg hx2] at he
      cases he
    · rw [if_neg hx1, if_pos hx2] at he
      cases he
    · rw [if_neg hx1, if_neg hx2] at he
      have h1' : k1 ∈ l := by
        rcases List.mem_cons.mp h1 with rfl | h'
        · exact absurd rfl hx1
        · exact h'
      have h2' : k2 ∈ l := by
        rcases List.mem_cons.mp h2 with rfl | h'
        · exact absurd rfl hx2
        · exact h'
      exact ih h1' h2' (Nat.succ_injective he)

theorem standardMap_inj (g : Graph) (off : Nat) :
    ∀ a ∈ atom_keys g, ∀ b ∈ atom_keys g,
      standardMap g off a = standardMap g off b → a = b := by
  intro a ha b hb he
  unfold standardMap at he
  have ha' : a ∈ isort natLe (atom_keys g) := (isort_perm natLe _).mem_iff.mpr ha
  have hb' : b ∈ isort natLe (atom_keys g) := (isort_perm natLe _).mem_iff.mpr hb
  exact idxOfNat_inj a b _ ha' hb' (Nat.add_left_cancel he)

theorem standardMap_bounds (g : Graph) (off : Nat) (k : Nat) (hk : k ∈ atom_keys g) :
    off ≤ standardMap g off k ∧ standardMap g off k < off + g.atms.length := by
  unfold standardMap
  constructor
  · exact Nat.le_add_right _ _
  · have hk' : k ∈ isort natLe (atom_keys g) := (isort_perm natLe _).mem_iff.mpr hk
    have := idxOfNat_lt k _ hk'
    have hlen : (isort natLe (atom_keys g)).length = g.atms.length := by
      rw [(isort_perm natLe _).length_eq]
      exact List.length_map _ _
    omega

/-- The standard-key output, one graph at a time. -/
def stdAux : List Graph → Nat → List Graph
  | [], _ => []
  | g :: gs, off => transform_keys g (standardMap g off) :: stdAux gs (off + g.atms.length)

theorem standard_keys_foldl_eq (gs : List Graph) :
    ∀ (acc : List Graph) (off : Nat),
      (gs.foldl
        (fun (st : List Graph × Nat) g =>
          (st.1 ++ [transform_keys g (standardMap g st.2)], st.2 + g.atms.length))
        (acc, off)).1 = acc ++ stdAux gs off := by
  induction gs with
  | nil => intro acc off; simp [stdAux]
  | cons g gs ih =>
    intro acc off
    simp only [List.foldl, stdAux]
    rw [ih]
    simp

theorem standard_keys_eq_stdAux (gs : List Graph) :
    (standard_keys_for_sequence gs).1 = stdAux gs 0 := by
  unfold standard_keys_for_sequence
  rw [standard_keys_foldl_eq gs [] 0]
  simp

/-! ## Preservation lemmas for the normalizations -/

theorem map_self_eq {α : Type _} (l : List α) (u : α → α) (h : l = l.map u) :
    ∀ e ∈ l, u e = e := by
  induction l with
  | nil => intro e he; cases he
  | cons a l ih =>
    simp only [List.map_cons, List.cons.injEq] at h
    intro e he
    rcases List.mem_cons.mp he with rfl | he'
    · exact h.1.symm
    · exact ih h.2 e he'

theorem hAssignments_counts (g : Graph) :
    ∀ t ∈ hAssignments g, ∃ e ∈ g.atms, t.2.2 = e.2.hcnt := by
  unfold hAssignments
  suffices h : ∀ (l : List (Nat × Atom)) (acc : List (Nat × Nat × Nat)) (nk : Nat),
      ∀ t ∈ (l.foldl
        (fun (st : List (Nat × Nat × Nat) × Nat) e =>
          (st.1 ++ [(e.1, st.2, e.2.hcnt)], st.2 + e.2.hcnt)) (acc, nk)).1,
        t ∈ acc ∨ ∃ e ∈ l, t.2.2 = e.2.hcnt by
    intro t ht
    rcases h g.atms [] (maxKey g + 1) t ht with hin | ⟨e, he, hec⟩
    · cases hin
    · exact ⟨e, he, hec⟩
  intro l
  induction l with
  | nil => intro acc nk t ht; exact Or.inl ht
  | cons e l ih =>
    intro acc nk t ht
    rcases ih _ _ t ht with hin | ⟨e', he', hec⟩
    · rcases List.mem_append.mp hin with hin' | hin'
      · exact Or.inl hin'
      · simp only [List.mem_singleton] at hin'
        subst hin'
        exact Or.inr ⟨e, by simp, rfl⟩
    · exact Or.inr ⟨e', by simp [he'], hec⟩

theorem flatMap_ranges_nil {β : Type _} (ts : List (Nat × Nat × Nat))
    (h : ∀ t ∈ ts, t.2.2 = 0) (u : Nat × Nat × Nat → Nat → β) :
    ts.flatMap (fun t => (List.range t.2.2).map (u t)) = [] := by
  induction ts with
  | nil => rfl
  | cons t ts ih =>
    simp only [List.flatMap_cons]
    rw [h t (by simp), ih (fun t' ht' => h t' (by simp [ht']))]
    rfl

theorem explicit_id_iff (g : Graph) :
    g = explicit g ↔ ∀ e ∈ g.atms, e.2.hcnt = 0 := by
  constructor
  · intro h
    have hatm : g.atms = g.atms.map (fun e => (e.1, ⟨e.2.symb, 0, e.2.ster⟩))
        ++ (hAssignments g).flatMap
          (fun t => (List.range t.2.2).map (fun i => (t.2.1 + i, ⟨"H", 0, none⟩))) :=
      congrArg Graph.atms h
    have hlen := congrArg List.length hatm
    rw [List.length_append, List.length_map] at hlen
    have hnil : (hAssignments g).flatMap
        (fun t => (List.range t.2.2).map (fun i => (t.2.1 + i, (⟨"H", 0, none⟩ : Atom)))) = [] :=
      List.length_eq_zero.mp (by omega)
    rw [hnil, List.append_nil] at hatm
    intro e he
    have := map_self_eq g.atms _ hatm e he
    have h2 := congrArg (fun x => x.2.hcnt) this
    simpa using h2.symm
  · intro h
    have hcounts : ∀ t ∈ hAssignments g, t.2.2 = 0 := by
      intro t ht
      obtain ⟨e, he, hec⟩ := hAssignments_counts g t ht
      rw [hec]
      exact h e he
    have hmap : g.atms.map (fun e => (e.1, (⟨e.2.symb, 0, e.2.ster⟩ : Atom))) = g.atms := by
      refine List.map_congr_left ?_ |>.trans (List.map_id _)
      intro e he
      have h0 := h e he
      cases e with
      | mk k a =>
        cases a with
        | mk s hc st =>
          simp only at h0
          subst h0
          rfl
    unfold explicit
    rw [flatMap_ranges_nil _ hcounts, flatMap_ranges_nil _ hcounts, hmap]
    cases g with
    | mk atms bnds => simp

theorem without_stereo_id_iff (g : Graph) :
    g = without_stereo_parities g ↔
      (∀ e ∈ g.atms, e.2.ster = none) ∧ ∀ e ∈ g.bnds, e.2.2 = none := by
  constructor
  · intro h
    have hatm : g.atms = g.atms.map (fun e => (e.1, ⟨e.2.symb, e.2.hcnt, none⟩)) :=
      congrArg Graph.atms h
    have hbnd : g.bnds = g.bnds.map (fun e => (e.1, (e.2.1, none))) :=
      congrArg Graph.bnds h
    constructor
    · intro e he
      have := map_self_eq g.atms _ hatm e he
      have h2 := congrArg (fun x => x.2.ster) this
      simpa using h2.symm
    · intro e he
      have := map_self_eq g.bnds _ hbnd e he
      have h2 := congrArg (fun x => x.2.2) this
      simpa using h2.symm
  · intro ⟨ha, hb⟩
    have hatm : g.atms.map (fun e => (e.1, (⟨e.2.symb, e.2.hcnt, none⟩ : Atom))) = g.atms := by
      refine List.map_congr_left ?_ |>.trans (List.map_id _)
      intro e he
      have h0 := ha e he
      cases e with
      | mk k a =>
        cases a with
        | mk s hc st =>
          simp only at h0
          subst h0
          rfl
    have hbnd : g.bnds.map (fun e => (e.1, (e.2.1, none))) = g.bnds := by
      refine List.map_congr_left ?_ |>.trans (List.map_id _)
      intro e he
      have h0 := hb e he
      cases e with
      | mk bk v =>
        cases v with
        | mk o st =>
          simp only at h0
          subst h0
          rfl
    unfold without_stereo_parities
    rw [hatm, hbnd]

theorem flatMap_map' {α β γ : Type _} (l : List α) (u : α → β) (w : β → List γ) :
    (l.map u).flatMap w = l.flatMap (fun x => w (u x)) := by
  induction l <;> simp_all

theorem atomSymbols_transform (g : Graph) (f : Nat → Nat) :
    atomSymbols (transform_keys g f) = atomSymbols g := by
  unfold atomSymbols transform_keys
  simp only []
  rw [flatMap_map']

theorem formula_transform (g : Graph) (f : Nat → Nat) :
    formula (transform_keys g f) = formula g := by
  unfold formula
  rw [atomSymbols_transform]

theorem explicit_transform (g : Graph) (f : Nat → Nat) (h : g = explicit g) :
    transform_keys g f = explicit (transform_keys g f) := by
  rw [explicit_id_iff] at h ⊢
  intro e he
  obtain ⟨e0, he0, rfl⟩ := List.mem_map.mp he
  exact h e0 he0

theorem stereo_transform (g : Graph) (f : Nat → Nat) (h : g = without_stereo_parities g) :
    transform_keys g f = without_stereo_parities (transform_keys g f) := by
  rw [without_stereo_id_iff] at h ⊢
  obtain ⟨ha, hb⟩ := h
  constructor
  · intro e he
    obtain ⟨e0, he0, rfl⟩ := List.mem_map.mp he
    exact ha e0 he0
  · intro e he
    obtain ⟨e0, he0, rfl⟩ := List.mem_map.mp he
    exact hb e0 he0

theorem mkBnd_fst_lt_snd (x y : Nat) (h : x ≠ y) : (mkBnd x y).1 < (mkBnd x y).2 := by
  unfold mkBnd
  split <;> simp <;> omega

theorem mkBnd_comps (x y : Nat) :
    ((mkBnd x y).1 = x ∨ (mkBnd x y).1 = y) ∧ ((mkBnd x y).2 = x ∨ (mkBnd x y).2 = y) := by
  unfold mkBnd
  split <;> simp

theorem bond_keys_transform (g : Graph) (f : Nat → Nat) :
    bond_keys (transform_keys g f) =
      (bond_keys g).map (fun bk => mkBnd (f bk.1) (f bk.2)) := by
  unfold bond_keys transform_keys
  simp [List.map_map]

theorem wf_bond_key_mem (g : Graph) (hwf : Wf g) (bk : Nat × Nat)
    (hbk : bk ∈ bond_keys g) :
    bk.1 < bk.2 ∧ bk.1 ∈ atom_keys g ∧ bk.2 ∈ atom_keys g := by
  obtain ⟨e, he, rfl⟩ := List.mem_map.mp hbk
  exact hwf.2.2 e he

theorem Wf_transform (g : Graph) (f : Nat → Nat)
    (hinj : ∀ a ∈ atom_keys g, ∀ b ∈ atom_keys g, f a = f b → a = b)
    (hwf : Wf g) : Wf (transform_keys g f) := by
  refine ⟨?_, ?_, ?_⟩
  · rw [atom_keys_transform]
    exact List.Nodup.map_on hinj hwf.1
  · rw [bond_keys_transform]
    refine List.Nodup.map_on ?_ hwf.2.1
    intro bk hbk bk' hbk' he
    obtain ⟨hlt, h1, h2⟩ := wf_bond_key_mem g hwf bk hbk
    obtain ⟨hlt', h1', h2'⟩ := wf_bond_key_mem g hwf bk' hbk'
    rcases (mkBnd_eq_iff _ _ _ _).mp he with ⟨hx, hy⟩ | ⟨hx, hy⟩
    · have e1 := hinj _ h1 _ h1' hx
      have e2 := hinj _ h2 _ h2' hy
      exact Prod.ext e1 e2
    · have e1 := hinj _ h1 _ h2' hx
      have e2 := hinj _ h2 _ h1' hy
      refine Prod.ext ?_ ?_ <;> omega
  · intro e he
    obtain ⟨e0, he0, rfl⟩ := List.mem_map.mp he
    obtain ⟨hlt, h1, h2⟩ := hwf.2.2 e0 he0
    have hne : f e0.1.1 ≠ f e0.1.2 := by
      intro hcontra
      have := hinj _ h1 _ h2 hcontra
      omega
    refine ⟨mkBnd_fst_lt_snd _ _ hne, ?_, ?_⟩
    · rw [atom_keys_transform]
      rcases (mkBnd_comps (f e0.1.1) (f e0.1.2)).1 with hc | hc <;> rw [hc]
      · exact List.mem_map.mpr ⟨e0.1.1, h1, rfl⟩
      · exact List.mem_map.mpr ⟨e0.1.2, h2, rfl⟩
    · rw [atom_keys_transform]
      rcases (mkBnd_comps (f e0.1.1) (f e0.1.2)).2 with hc | hc <;> rw [hc]
      · exact List.mem_map.mpr ⟨e0.1.1, h1, rfl⟩
      · exact List.mem_map.mpr ⟨e0.1.2, h2, rfl⟩

theorem stdAux_length (gs : List Graph) : ∀ off, (stdAux gs off).length = gs.length := by
  induction gs with
  | nil => intro off; rfl
  | cons g gs ih => intro off; simp [stdAux, ih]

theorem stdAux_props (gs : List Graph) (hw : ∀ g ∈ gs, Wf g)
    (he : ∀ g ∈ gs, g = explicit g) (hs : ∀ g ∈ gs, g = without_stereo_parities g) :
    ∀ off, ∀ g' ∈ stdAux gs off,
      Wf g' ∧ g' = explicit g' ∧ g' = without_stereo_parities g' := by
  induction gs with
  | nil => intro off g' hg'; cases hg'
  | cons g gs ih =>
    intro off g' hg'
    rcases List.mem_cons.mp hg' with rfl | hg''
    · refine ⟨Wf_transform g _ (standardMap_inj g off) (hw g (by simp)), ?_, ?_⟩
      · exact explicit_transform g _ (he g (by simp))
      · exact stereo_transform g _ (hs g (by simp))
    · exact ih (fun g0 h0 => hw g0 (by simp [h0]))
        (fun g0 h0 => he g0 (by simp [h0]))
        (fun g0 h0 => hs g0 (by simp [h0])) _ g' hg''

theorem stdAux_keys_nodup (gs : List Graph) (hw : ∀ g ∈ gs, Wf g) :
    ∀ off, ((stdAux gs off).flatMap atom_keys).Nodup ∧
      ∀ k ∈ (stdAux gs off).flatMap atom_keys, off ≤ k := by
  induction gs with
  | nil => intro off; simp [stdAux]
  | cons g gs ih =>
    intro off
    obtain ⟨ihn, ihb⟩ := ih (fun g0 h0 => hw g0 (by simp [h0])) (off + g.atms.length)
    have hwg := hw g (by simp)
    have hkeys : atom_keys (transform_keys g (standardMap g off)) =
        (atom_keys g).map (standardMap g off) := atom_keys_transform _ _
    have hheadn : (atom_keys (transform_keys g (standardMap g off))).Nodup := by
      rw [hkeys]
      exact List.Nodup.map_on (standardMap_inj g off) hwg.1
    have hheadb : ∀ k ∈ atom_keys (transform_keys g (standardMap g off)),
        off ≤ k ∧ k < off + g.atms.length := by
      rw [hkeys]
      intro k hk
      obtain ⟨k0, hk0, rfl⟩ := List.mem_map.mp hk
      exact standardMap_bounds g off k0 hk0
    constructor
    · simp only [stdAux, List.flatMap_cons]
      refine List.Nodup.append hheadn ihn ?_
      intro k hk1 hk2
      have hb1 := (hheadb k hk1).2
      have hb2 := ihb k hk2
      omega
    · simp only [stdAux, List.flatMap_cons]
      intro k hk
      rcases List.mem_append.mp hk with hk' | hk'
      · exact (hheadb k hk').1
      · have := ihb k hk'
        omega

/-! ## Isomorphic graphs have equal formulas -/

theorem assoc_values (l : List (Nat × Atom)) (hnd : (l.map Prod.fst).Nodup) :
    l.map Prod.snd = (l.map Prod.fst).map
      (fun k => ((l.find? (fun e => decide (e.1 = k))).map Prod.snd).getD ⟨"", 0, none⟩) := by
  induction l with
  | nil => rfl
  | cons e l ih =>
    simp only [List.map_cons]
    congr 1
    · simp [List.find?]
    · rw [ih (List.nodup_cons.mp hnd).2]
      refine List.map_congr_left ?_
      intro k hk
      have hne : ¬ (e.1 = k) := fun hcontra => (List.nodup_cons.mp hnd).1 (hcontra ▸ hk)
      simp [List.find?, hne]

theorem values_eq_map_atomValD (g : Graph) (hnd : (atom_keys g).Nodup) :
    g.atms.map Prod.snd = (atom_keys g).map (atomValD g) :=
  assoc_values g.atms hnd

theorem formula_eq_of_iso (g h : Graph)
    (hwg : (atom_keys g).Nodup) (hwh : (atom_keys h).Nodup)
    (hiso : isoTruthy g h = true) : formula g = formula h := by
  obtain ⟨p, hp, _⟩ := (isoTruthy_iff g h).mp hiso
  obtain ⟨hpf, hps, hpnf, hpns, hpa, hpb⟩ := full_isomorphism_sound g h p hp
  have hvals : (g.atms.map Prod.snd).Perm (h.atms.map Prod.snd) := by
    rw [values_eq_map_atomValD g hwg, values_eq_map_atomValD h hwh]
    have c1 : ((atom_keys g).map (atomValD g)).Perm ((keysFst p).map (atomValD g)) :=
      (hpf.symm).map _
    have c2 : (keysFst p).map (atomValD g) = p.map (fun pr => atomValD g pr.1) := by
      rw [keysFst, List.map_map]; rfl
    have c3 : p.map (fun pr => atomValD g pr.1) = p.map (fun pr => atomValD h pr.2) := by
      refine List.map_congr_left ?_
      intro pr hpr
      unfold atomValD
      rw [hpa pr hpr]
    have c4 : p.map (fun pr => atomValD h pr.2) = (keysSnd p).map (atomValD h) := by
      rw [keysSnd, List.map_map]; rfl
    have c5 : ((keysSnd p).map (atomValD h)).Perm ((atom_keys h).map (atomValD h)) :=
      hps.map _
    calc ((atom_keys g).map (atomValD g)).Perm ((keysFst p).map (atomValD g)) := c1
      _ = p.map (fun pr => atomValD g pr.1) := c2
      _ = p.map (fun pr => atomValD h pr.2) := c3
      _ = (keysSnd p).map (atomValD h) := c4
      _ |>.Perm ((atom_keys h).map (atomValD h)) := c5
  have hsym : (atomSymbols g).Perm (atomSymbols h) := by
    have e1 : atomSymbols g = (g.atms.map Prod.snd).flatMap
        (fun a => a.symb :: List.replicate a.hcnt "H") := by
      unfold atomSymbols
      rw [flatMap_map']
    have e2 : atomSymbols h = (h.atms.map Prod.snd).flatMap
        (fun a => a.symb :: List.replicate a.hcnt "H") := by
      unfold atomSymbols
      rw [flatMap_map']
    rw [e1, e2]
    exact List.Perm.flatMap_right _ hvals
  unfold formula
  exact Multiset.coe_eq_coe.mpr hsym

/-! ## Multiset relations of mutually isomorphic reagent lists -/

/-- Truthy full isomorphism as a relation on graphs. -/
def IsoP (g h : Graph) : Prop := isoTruthy g h = true

instance (g h : Graph) : Decidable (IsoP g h) := by unfold IsoP; infer_instance

theorem isoP_atom_keys_ne (g h : Graph) (hiso : IsoP g h) : atom_keys g ≠ [] := by
  obtain ⟨p, hp, hpn⟩ := (isoTruthy_iff g h).mp hiso
  intro h0
  exact hpn ((IsoCheckP_empty_iff p g h (full_isomorphism_sound g h p hp)).mpr h0)

theorem rel_of_forall₂ {R : Graph → Graph → Prop} (l1 l2 : List Graph)
    (h : List.Forall₂ R l1 l2) : Multiset.Rel R ↑l1 ↑l2 := by
  induction h with
  | nil => exact Multiset.Rel.zero
  | cons hab _ ih =>
    rw [← Multiset.cons_coe, ← Multiset.cons_coe]
    exact Multiset.Rel.cons hab ih

theorem rel_isoP_symm {M N : Multiset Graph} (h : Multiset.Rel IsoP M N) :
    Multiset.Rel IsoP N M := by
  rw [← Multiset.rel_flip]
  exact h.mono (fun a _ b _ hab => isoTruthy_symm a b hab)

theorem rel_isoP_trans {M N P : Multiset Graph}
    (h1 : Multiset.Rel IsoP M N) (h2 : Multiset.Rel IsoP N P) :
    Multiset.Rel IsoP M P := by
  induction h1 generalizing P with
  | zero =>
    rw [Multiset.rel_zero_left] at h2
    subst h2
    exact Multiset.Rel.zero
  | cons hab h1' ih =>
    rcases Multiset.rel_cons_left.mp h2 with ⟨c, P', hbc, hrel, rfl⟩
    exact Multiset.Rel.cons (isoTruthy_trans _ _ _ hab hbc) (ih hrel)

theorem rel_exists_of_mem {R : Graph → Graph → Prop} {M N : Multiset Graph}
    (h : Multiset.Rel R M N) (a : Graph) (ha : a ∈ M) : ∃ b ∈ N, R a b := by
  obtain ⟨M', rfl⟩ := Multiset.exists_cons_of_mem ha
  rcases Multiset.rel_cons_left.mp h with ⟨b, N', hab, _, rfl⟩
  exact ⟨b, by simp, hab⟩

theorem rel_formula_sum {M N : Multiset Graph} (h : Multiset.Rel IsoP M N)
    (hwm : ∀ g ∈ M, (atom_keys g).Nodup) (hwn : ∀ g ∈ N, (atom_keys g).Nodup) :
    (M.map formula).sum = (N.map formula).sum := by
  induction h with
  | zero => rfl
  | cons hab h' ih =>
    rename_i a b as bs
    simp only [Multiset.map_cons, Multiset.sum_cons]
    rw [formula_eq_of_iso a b (hwm a (by simp)) (hwn b (by simp)) hab,
      ih (fun g hg => hwm g (by simp [hg])) (fun g hg => hwn g (by simp [hg]))]

/-! ## The greedy matching loop: completeness and the pairing it realizes -/

theorem firstIsoIdx_isSome (r : Graph) (prds : List Graph)
    (hex : ∃ p ∈ prds, isoTruthy r p = true) :
    ∃ j, firstIsoIdx r prds = some j := by
  induction prds with
  | nil => obtain ⟨p, hp, _⟩ := hex; cases hp
  | cons q prds ih =>
    simp only [firstIsoIdx]
    by_cases hq : isoTruthy r q
    · exact ⟨0, by rw [if_pos hq]⟩
    · rw [if_neg hq]
      obtain ⟨p, hp, hiso⟩ := hex
      rcases List.mem_cons.mp hp with rfl | hp'
      · exact absurd hiso hq
      · obtain ⟨j, hj⟩ := ih ⟨p, hp', hiso⟩
        exact ⟨j + 1, by rw [hj]; rfl⟩

theorem firstIsoIdx_sound (r : Graph) (prds : List Graph) (j : Nat)
    (h : firstIsoIdx r prds = some j) :
    j < prds.length ∧ isoTruthy r (prds.getD j ⟨[], []⟩) = true := by
  induction prds generalizing j with
  | nil => cases h
  | cons q prds ih =>
    simp only [firstIsoIdx] at h
    by_cases hq : isoTruthy r q
    · rw [if_pos hq] at h
      simp only [Option.some.injEq] at h
      subst h
      exact ⟨by simp, by simpa using hq⟩
    · rw [if_neg hq] at h
      cases hj : firstIsoIdx r prds with
      | none => rw [hj] at h; cases h
      | some j0 =>
        rw [hj] at h
        simp only [Option.map_some', Option.some.injEq] at h
        subst h
        obtain ⟨hlt, hiso⟩ := ih j0 hj
        exact ⟨by simpa [Nat.succ_lt_succ_iff] using hlt, by simpa using hiso⟩

theorem coe_eraseIdx (l : List Graph) (j : Nat) (hj : j < l.length) :
    (↑(l.eraseIdx j) : Multiset Graph) = (↑l : Multiset Graph).erase (l.getD j ⟨[], []⟩) := by
  induction l generalizing j with
  | nil => cases hj
  | cons a l ih =>
    cases j with
    | zero =>
      rw [show (a :: l).eraseIdx 0 = l from rfl,
        show (a :: l).getD 0 ⟨[], []⟩ = a from rfl,
        ← Multiset.cons_coe, Multiset.erase_cons_head]
    | succ j0 =>
      have hj0 : j0 < l.length := by simpa [Nat.succ_lt_succ_iff] using hj
      rw [List.eraseIdx_cons_succ,
        show (a :: l).getD (j0 + 1) ⟨[], []⟩ = l.getD j0 ⟨[], []⟩ from rfl,
        ← Multiset.cons_coe, ← Multiset.cons_coe, ih j0 hj0]
      by_cases hval : a = l.getD j0 ⟨[], []⟩
      · have hmem : a ∈ (↑l : Multiset Graph) := by
          rw [hval]
          have : l.getD j0 ⟨[], []⟩ ∈ l := by
            rw [List.getD_eq_getElem l _ hj0]
            exact List.getElem_mem hj0
          simpa using this
        rw [← hval, Multiset.erase_cons_head]
        exact Multiset.cons_erase hmem
      · exact (Multiset.erase_cons_tail _ hval).symm

theorem rel_erase_of_iso {M N : Multiset Graph} (r b : Graph)
    (h : Multiset.Rel IsoP (r ::ₘ M) N) (hrb : IsoP r b) (hbN : b ∈ N) :
    Multiset.Rel IsoP M (N.erase b) := by
  rcases Multiset.rel_cons_left.mp h with ⟨b₀, N₀, hrb₀, hM, rfl⟩
  by_cases hbb : b = b₀
  · subst hbb
    rw [Multiset.erase_cons_head]
    exact hM
  · have hbN₀ : b ∈ N₀ := by
      rcases Multiset.mem_cons.mp hbN with h' | h'
      · exact absurd h' hbb
      · exact h'
    have hflip : Multiset.Rel (flip IsoP) N₀ M := Multiset.rel_flip.mpr hM
    obtain ⟨N₁, rfl⟩ := Multiset.exists_cons_of_mem hbN₀
    rcases Multiset.rel_cons_left.mp hflip with ⟨a', M', hba', hN₁M', rfl⟩
    rw [Multiset.erase_cons_tail _ (fun hc => hbb hc.symm), Multiset.erase_cons_head]
    refine Multiset.Rel.cons ?_ (Multiset.rel_flip.mp hN₁M')
    exact isoTruthy_trans _ _ _
      (isoTruthy_trans _ _ _ hba' (isoTruthy_symm _ _ hrb)) hrb₀

theorem trivLoop_some (rcts prds : List Graph)
    (hrel : Multiset.Rel IsoP ↑rcts ↑prds) :
    ∃ idxs, trivLoop rcts prds = some idxs := by
  induction rcts generalizing prds with
  | nil => exact ⟨[], rfl⟩
  | cons r rs ih =>
    have hrel' : Multiset.Rel IsoP (r ::ₘ (↑rs : Multiset Graph)) ↑prds := by
      rwa [Multiset.cons_coe]
    obtain ⟨b, hbN, hrb⟩ := rel_exists_of_mem hrel' r (by simp)
    have hbl : b ∈ prds := by simpa using hbN
    obtain ⟨j, hj⟩ := firstIsoIdx_isSome r prds ⟨b, hbl, hrb⟩
    obtain ⟨hjlt, hjiso⟩ := firstIsoIdx_sound r prds j hj
    have hmemj : prds.getD j ⟨[], []⟩ ∈ (↑prds : Multiset Graph) := by
      have : prds.getD j ⟨[], []⟩ ∈ prds := by
        rw [List.getD_eq_getElem _ _ hjlt]
        exact List.getElem_mem hjlt
      simpa using this
    have hrel2 : Multiset.Rel IsoP ↑rs ↑(prds.eraseIdx j) := by
      rw [coe_eraseIdx prds j hjlt]
      exact rel_erase_of_iso r _ hrel' hjiso hmemj
    obtain ⟨idxs, hidxs⟩ := ih (prds.eraseIdx j) hrel2
    refine ⟨j :: idxs, ?_⟩
    simp only [trivLoop, hj, hidxs, Option.map_some']

/-- The claimed-products decoding of the greedy loop's index sequence:
each index selects a product from the list with the previously claimed
products removed. -/
def claimSeq (prds : List Graph) : List Nat → Option (List Graph)
  | [] => some []
  | j :: js =>
    if j < prds.length then
      (claimSeq (prds.eraseIdx j) js).map (fun cl => prds.getD j ⟨[], []⟩ :: cl)
    else none

theorem trivLoop_sound (rcts : List Graph) :
    ∀ (prds : List Graph) (idxs : List Nat),
      trivLoop rcts prds = some idxs → rcts.length = prds.length →
      ∃ claimed : List Graph,
        claimSeq prds idxs = some claimed ∧
          List.Forall₂ IsoP rcts claimed ∧
          (↑claimed : Multiset Graph) = ↑prds := by
  induction rcts with
  | nil =>
    intro prds idxs h hlen
    simp only [trivLoop, Option.some.injEq] at h
    subst h
    have : prds = [] := List.length_eq_zero.mp hlen.symm
    subst this
    exact ⟨[], rfl, List.Forall₂.nil, rfl⟩
  | cons r rs ih =>
    intro prds idxs h hlen
    simp only [trivLoop] at h
    cases hj : firstIsoIdx r prds with
    | none => rw [hj] at h; cases h
    | some j =>
      rw [hj] at h
      simp only [] at h
      cases hrec : trivLoop rs (prds.eraseIdx j) with
      | none => rw [hrec] at h; cases h
      | some idxs0 =>
        rw [hrec] at h
        simp only [Option.map_some', Option.some.injEq] at h
        subst h
        obtain ⟨hjlt, hjiso⟩ := firstIsoIdx_sound r prds j hj
        have hlen' : rs.length = (prds.eraseIdx j).length := by
          rw [List.length_eraseIdx_of_lt hjlt]
          simp only [List.length_cons] at hlen
          omega
        obtain ⟨claimed0, hc0, hf0, hm0⟩ := ih (prds.eraseIdx j) idxs0 hrec hlen'
        refine ⟨prds.getD j ⟨[], []⟩ :: claimed0, ?_, ?_, ?_⟩
        · simp only [claimSeq]
          rw [if_pos hjlt, hc0]
          rfl
        · exact List.Forall₂.cons hjiso hf0
        · rw [← Multiset.cons_coe, hm0, coe_eraseIdx prds j hjlt]
          refine Multiset.cons_erase ?_
          have : prds.getD j ⟨[], []⟩ ∈ prds := by
            rw [List.getD_eq_getElem _ _ hjlt]
            exact List.getElem_mem hjlt
          simpa using this

/-- Each reagent is fully isomorphic to its renumbered image in
`stdAux` (the key map is injective on its atom keys). -/
theorem stdAux_iso (gs : List Graph) (hw : ∀ g ∈ gs, Wf g)
    (hne : ∀ g ∈ gs, atom_keys g ≠ []) :
    ∀ off, List.Forall₂ IsoP gs (stdAux gs off) := by
  induction gs with
  | nil => intro off; exact List.Forall₂.nil
  | cons g gs ih =>
    intro off
    refine List.Forall₂.cons ?_
      (ih (fun g0 h0 => hw g0 (by simp [h0])) (fun g0 h0 => hne g0 (by simp [h0])) _)
    exact transform_keys_isoP g _ (standardMap_inj g off) (hw g (by simp)) (hne g (by simp))

/-! ## Claim C2 -/

/-- Counterexample to C2 as stated: two distinct single-atom species,
with products isomorphic to the reactants in order.  `classify_simple`
does return the trivial class, but `trivial_reaction` returns the
product index tuple (0, 0) — the recorded indices refer to the product
list with previously claimed entries popped — which is not a permutation
of the product positions, and reactant 1 is not isomorphic to the
product at original position 0. -/
theorem C2_counterexample :
    (IsoP gC0 gC2 ∧ IsoP gO1 gO7) ∧
      classify_simple [gC0, gO1] [gC2, gO7] = Except.ok (some RxnClass.TRIVIAL) ∧
      trivial_reaction [gC0, gO1] [gC2, gO7] = Except.ok
        ([Tra.from_data (some RxnClass.TRIVIAL) [] []], some [0, 1], some [0, 0]) ∧
      ¬ List.Nodup [0, 0] ∧
      isoTruthy gO1 gC2 = false :=
  ⟨⟨by decide, by decide⟩, rfl, rfl, by decide, by decide⟩

/-- C2 (amended): if the products are exactly the reactants up to full
isomorphism and a permutation (as the code's oracle observes it), then
`classify_simple` returns the trivial class, and the orderings returned
by `trivial_reaction` (and hence `classify`) on the normalized reagent
lists realize a perfect greedy pairing: interpreting each entry of
`prd_idxs` as an index into the product list with the previously claimed
products removed yields a sequence of claimed products in which every
reactant is fully isomorphic to the product it claimed and every product
is claimed exactly once. -/
theorem C2_trivial_greedy_pairing (rct prd : List Graph)
    (hwr : ∀ g ∈ rct, Wf g) (hwp : ∀ g ∈ prd, Wf g)
    (hre : are_all_explicit rct) (hrs : have_no_stereo_assignments rct)
    (hpe : are_all_explicit prd) (hps : have_no_stereo_assignments prd)
    (hrel : Multiset.Rel IsoP ↑rct ↑prd) :
    classify_simple rct prd = Except.ok (some RxnClass.TRIVIAL) ∧
      ∃ (idxs : List Nat) (claimed : List Graph),
        trivial_reaction (stdAux rct 0) (stdAux prd 0) = Except.ok
          ([Tra.from_data (some RxnClass.TRIVIAL) [] []],
            some (List.range rct.length), some idxs) ∧
          classify (stdAux rct 0) (stdAux prd 0) = Except.ok
            ([Tra.from_data (some RxnClass.TRIVIAL) [] []],
              some (List.range rct.length), some idxs) ∧
          claimSeq (stdAux prd 0) idxs = some claimed ∧
          List.Forall₂ IsoP (stdAux rct 0) claimed ∧
          (↑claimed : Multiset Graph) = ↑(stdAux prd 0) := by
  -- non-empty atom key sets, from the isomorphism hypothesis
  have hner : ∀ g ∈ rct, atom_keys g ≠ [] := by
    intro g hg
    obtain ⟨b, _, hb⟩ := rel_exists_of_mem hrel g (by simpa using hg)
    exact isoP_atom_keys_ne g b hb
  have hnep : ∀ g ∈ prd, atom_keys g ≠ [] := by
    intro g hg
    obtain ⟨b, _, hb⟩ := rel_exists_of_mem (rel_isoP_symm hrel) g (by simpa using hg)
    exact isoP_atom_keys_ne g b hb
  -- each reagent is isomorphic to its renumbered image
  have hfr : List.Forall₂ IsoP rct (stdAux rct 0) := stdAux_iso rct hwr hner 0
  have hfp : List.Forall₂ IsoP prd (stdAux prd 0) := stdAux_iso prd hwp hnep 0
  have hrel' : Multiset.Rel IsoP ↑(stdAux rct 0) ↑(stdAux prd 0) :=
    rel_isoP_trans (rel_isoP_symm (rel_of_forall₂ _ _ hfr))
      (rel_isoP_trans hrel (rel_of_forall₂ _ _ hfp))
  -- the normalized lists are valid reagent lists
  have hpropsr := stdAux_props rct hwr hre hrs 0
  have hpropsp := stdAux_props prd hwp hpe hps 0
  have hvalidr : ValidReagents (stdAux rct 0) :=
    ⟨fun g hg => (hpropsr g hg).2.1, fun g hg => (hpropsr g hg).2.2,
      (stdAux_keys_nodup rct hwr 0).1⟩
  have hvalidp : ValidReagents (stdAux prd 0) :=
    ⟨fun g hg => (hpropsp g hg).2.1, fun g hg => (hpropsp g hg).2.2,
      (stdAux_keys_nodup prd hwp 0).1⟩
  -- lengths agree
  have hlen0 : rct.length = prd.length := by
    have := Multiset.card_eq_card_of_rel hrel
    simpa using this
  have hlen : (stdAux rct 0).length = (stdAux prd 0).length := by
    rw [stdAux_length, stdAux_length]
    exact hlen0
  -- the greedy loop succeeds
  obtain ⟨idxs, hidxs⟩ := trivLoop_some (stdAux rct 0) (stdAux prd 0) hrel'
  -- trivial_reaction's value
  have htr : trivial_reaction (stdAux rct 0) (stdAux prd 0) = Except.ok
      ([Tra.from_data (some RxnClass.TRIVIAL) [] []],
        some (List.range rct.length), some idxs) := by
    unfold trivial_reaction
    rw [(assert_ok_iff _).mpr hvalidr]
    simp only [Bind.bind, Except.bind]
    rw [(assert_ok_iff _).mpr hvalidp]
    simp only [Except.bind]
    rw [if_pos hlen, hidxs, stdAux_length]
    rfl
  -- formula balance of the normalized lists
  have hval : is_valid_reaction (stdAux rct 0) (stdAux prd 0) := by
    unfold is_valid_reaction
    have hsum := rel_formula_sum hrel'
      (fun g hg => by simpa using (hpropsr g (by simpa using hg)).1.1)
      (fun g hg => by simpa using (hpropsp g (by simpa using hg)).1.1)
    rw [Multiset.map_coe, Multiset.map_coe, Multiset.sum_coe, Multiset.sum_coe] at hsum
    exact hsum
  -- classify returns the trivial result
  have hcl : classify (stdAux rct 0) (stdAux prd 0) = Except.ok
      ([Tra.from_data (some RxnClass.TRIVIAL) [] []],
        some (List.range rct.length), some idxs) := by
    unfold classify
    rw [if_pos hval]
    simp only [REACTION_FINDER_DCT, List.map_cons, List.map_nil]
    rw [runFinders_cons _ _ _ _ (by simp), htr]
    simp only [Bind.bind, Except.bind]
    rw [if_neg (by simp)]
    rfl
  -- the pairing realized by the returned indices
  obtain ⟨claimed, hc, hf, hm⟩ :=
    trivLoop_sound (stdAux rct 0) (stdAux prd 0) idxs hidxs hlen
  refine ⟨?_, idxs, claimed, htr, hcl, hc, hf, hm⟩
  -- classify_simple on the raw inputs
  unfold classify_simple
  simp only []
  have hmape : rct.map explicit = rct :=
    (List.map_congr_left (fun g hg => (hre g hg).symm)).trans (List.map_id _)
  have hmaps : rct.map without_stereo_parities = rct :=
    (List.map_congr_left (fun g hg => (hrs g hg).symm)).trans (List.map_id _)
  have hmape' : prd.map explicit = prd :=
    (List.map_congr_left (fun g hg => (hpe g hg).symm)).trans (List.map_id _)
  have hmaps' : prd.map without_stereo_parities = prd :=
    (List.map_congr_left (fun g hg => (hps g hg).symm)).trans (List.map_id _)
  rw [hmape, hmaps, hmape', hmaps']
  rw [show standard_keys_for_sequence rct = (stdAux rct 0, ()) from
      Prod.ext (standard_keys_eq_stdAux rct) rfl,
    show standard_keys_for_sequence prd = (stdAux prd 0, ()) from
      Prod.ext (standard_keys_eq_stdAux prd) rfl]
  simp only []
  rw [hcl]
  simp only [Bind.bind, Except.bind]
  rfl

/-- Witness for the amended C2: one carbon and one oxygen atom, with the
products listed in the same order. -/
theorem C2_trivial_greedy_pairing_witness :
    classify_simple [gC0, gO1] [gC2, gO7] = Except.ok (some RxnClass.TRIVIAL) ∧
      ∃ (idxs : List Nat) (claimed : List Graph),
        trivial_reaction (stdAux [gC0, gO1] 0) (stdAux [gC2, gO7] 0) = Except.ok
          ([Tra.from_data (some RxnClass.TRIVIAL) [] []],
            some (List.range ([gC0, gO1] : List Graph).length), some idxs) ∧
          classify (stdAux [gC0, gO1] 0) (stdAux [gC2, gO7] 0) = Except.ok
            ([Tra.from_data (some RxnClass.TRIVIAL) [] []],
              some (List.range ([gC0, gO1] : List Graph).length), some idxs) ∧
          claimSeq (stdAux [gC2, gO7] 0) idxs = some claimed ∧
          List.Forall₂ IsoP (stdAux [gC0, gO1] 0) claimed ∧
          (↑claimed : Multiset Graph) = ↑(stdAux [gC2, gO7] 0) :=
  C2_trivial_greedy_pairing [gC0, gO1] [gC2, gO7]
    (by decide) (by decide) (by decide) (by decide) (by decide) (by decide)
    (by
      rw [show ((↑([gC0, gO1] : List Graph) : Multiset Graph)) =
          gC0 ::ₘ gO1 ::ₘ 0 by rfl,
        show ((↑([gC2, gO7] : List Graph) : Multiset Graph)) =
          gC2 ::ₘ gO7 ::ₘ 0 by rfl]
      exact Multiset.Rel.cons (by decide)
        (Multiset.Rel.cons (by decide) Multiset.Rel.zero))

/-- Witness for C1 at a concrete trivial reaction. -/
theorem C1_classify_result_shape_witness :
    (([Tra.from_data (some RxnClass.TRIVIAL) [] []] : List Tra) = [] ∧
        (some [0] : Option (List Nat)) = none ∧ (some [0] : Option (List Nat)) = none) ∨
      (([Tra.from_data (some RxnClass.TRIVIAL) [] []] : List Tra) ≠ [] ∧
        (∃ a, (some [0] : Option (List Nat)) = some a) ∧
          ∃ b, (some [0] : Option (List Nat)) = some b) :=
  C1_classify_result_shape [gC0] [gC5]
    ([Tra.from_data (some RxnClass.TRIVIAL) [] []], some [0], some [0])
    (by decide) (by decide) (by decide) rfl

end Reac
